import Mathlib

/-!
Shallow embedding of the AppNVM FTL core (hw/block/ox-ctrl/ftl/appnvm/app_core.c)
together with proofs about its buffer layout, physical I/O plane iteration,
page-recency scan, sequential table transfer and bad-block table operations.

Machine integers of the C source are modelled as Nat (with explicit masks or
Int casts where the C arithmetic can differ from plain Nat arithmetic), heap
buffers as functions Nat -> Nat from byte offsets to byte values, and the
external collaborators (media manager submission, pointer validity checks,
the bad-block flush function) as oracle parameters.
-/

/-- Channel geometry (struct nvm_mmgr_geometry, external read-only input).
Field names follow the source. -/
structure Geometry where
  n_of_planes : Nat
  pg_size : Nat
  sec_size : Nat
  sec_per_pg : Nat
  sec_oob_sz : Nat
  pg_per_blk : Nat
  blk_per_lun : Nat
  sec_per_pl_pg : Nat
deriving DecidableEq

/-- Physical page address (struct nvm_ppa_addr, fields of the .g view). -/
structure PPA where
  ch : Nat
  lun : Nat
  blk : Nat
  pl : Nat
  pg : Nat
deriving DecidableEq

/-- Bad-block set operation (app_ftl_set_bbtbl, app_core.c lines 376-401).
The state is the per-channel byte table tbl of lch->bbtbl->tbl; flushRet
models the status returned by the registered flush collaborator
appnvm()->bbt.flush_fn.  The result is (return status, updated table,
number of flush invocations, whether the flush-failure warning was logged).
The bound check is performed on Int because the C comparison
(blk * n_pl + pl) > (blk_per_lun * n_pl - 1) is int arithmetic, where
blk_per_lun * n_pl - 1 can be -1. -/
def app_ftl_set_bbtbl (g : Geometry) (tbl : Nat → Nat) (flushRet : Int)
    (ppa : PPA) (value : Nat) : Int × (Nat → Nat) × Nat × Bool :=
  let n_pl := g.n_of_planes
  if ((ppa.blk * n_pl + ppa.pl : Nat) : Int) > ((g.blk_per_lun * n_pl : Nat) : Int) - 1 then
    (-1, tbl, 0, false)
  else
    let l_addr := ppa.lun * g.blk_per_lun * n_pl
    let flush : Nat :=
      if tbl (l_addr + (ppa.blk * n_pl + ppa.pl)) = value then 0 else 1
    let tbl2 : Nat → Nat := fun a =>
      if a = l_addr + (ppa.blk * n_pl + ppa.pl) then value else tbl a
    if flush = 1 then (0, tbl2, 1, flushRet ≠ 0) else (0, tbl2, 0, false)

/-- Bad-block get operation (app_ftl_get_bbtbl, app_core.c lines 358-374).
bbtblBad and chBad model the two nvm_memcheck pointer checks (nvm_memcheck
is defined outside src/; nonzero means an invalid pointer); out is the
caller output buffer.  The 0xffff mask of the C source
(n_of_planes & 0xffff) is modelled as % 65536.  The result is
(return status, caller buffer contents after the call). -/
def app_ftl_get_bbtbl (g : Geometry) (tbl : Nat → Nat) (bbtblBad chBad : Bool)
    (out : Nat → Nat) (ppa : PPA) (nb : Nat) : Int × (Nat → Nat) :=
  let l_addr := ppa.lun * g.blk_per_lun * g.n_of_planes
  if bbtblBad = true ∨ chBad = true ∨
      nb ≠ g.blk_per_lun * (g.n_of_planes % 65536) then
    (-1, out)
  else
    (0, fun b => if b < nb then tbl (l_addr + b) else out b)

/-- Physical media-manager command as filled by app_pg_io / app_io_rsv_blk
(the cmd->ppa.g fields of struct nvm_mmgr_io_cmd after the memset). -/
structure MmgrCmd where
  ch : Nat
  lun : Nat
  blk : Nat
  pl : Nat
  pg : Nat
deriving DecidableEq

/-- Modelled from the spec: out-of-memory indicator EMEM returned by
app_pg_io and app_io_rsv_blk when the transient command descriptor cannot
be allocated.  Its numeric value is defined in include/ssd.h, which is not
under src/; only its role as a distinguished return code matters here. -/
def EMEM : Int := 12

/-- Plane iteration shared by app_pg_io (app_core.c lines 271-285) and
app_io_rsv_blk (lines 301-318): both functions run the same loop and
differ only in how the per-plane command is built, captured by mk.
submit models nvm_submit_sync_io and returns the status for the command
issued in that iteration; the issued commands are accumulated (acc holds
them most recent first, the result restores program order).  ret carries
the C variable ret (initialised to -1 before the loop). -/
def pgIoLoop (submit : MmgrCmd → Int) (mk : Nat → MmgrCmd) :
    Nat → Nat → Int → List MmgrCmd → Int × List MmgrCmd
  | 0, _, ret, acc => (ret, acc.reverse)
  | rem + 1, pl, _, acc =>
    let cmd := mk pl
    let r := submit cmd
    if r ≠ 0 then (r, (cmd :: acc).reverse)
    else pgIoLoop submit mk rem (pl + 1) r (cmd :: acc)

/-- Normal-path page I/O (app_pg_io, app_core.c lines 261-289): one command
per plane with the caller's blk/lun/pg and the channel's mmgr id ch_id;
allocOk models the malloc of the transient command descriptor; cmdtype is
passed through to the submission oracle (it only selects the data buffer
in the source, which the command trace does not carry). -/
def app_pg_io (g : Geometry) (ch_id : Nat) (submit : Nat → MmgrCmd → Int)
    (allocOk : Bool) (cmdtype : Nat) (ppa : PPA) : Int × List MmgrCmd :=
  if allocOk = false then (EMEM, [])
  else
    pgIoLoop (submit cmdtype)
      (fun pl => { blk := ppa.blk, pl := pl, ch := ch_id, lun := ppa.lun, pg := ppa.pg })
      g.n_of_planes 0 (-1) []

/-- Reserved-block page I/O (app_io_rsv_blk, app_core.c lines 291-322):
identical loop, but the block and page are explicit arguments and the lun
is hardwired to 0 (the TODO RAID-1 comment in the source). -/
def app_io_rsv_blk (g : Geometry) (ch_id : Nat) (submit : Nat → MmgrCmd → Int)
    (allocOk : Bool) (cmdtype : Nat) (blk pg : Nat) : Int × List MmgrCmd :=
  if allocOk = false then (EMEM, [])
  else
    pgIoLoop (submit cmdtype)
      (fun pl => { blk := blk, pl := pl, ch := ch_id, lun := 0, pg := pg })
      g.n_of_planes 0 (-1) []

/-- Scan loop of app_blk_current_page (app_core.c lines 156-169).  read
models one app_io_rsv_blk read of a page of the scanned block: none when
the read returns nonzero, some m when it succeeds and m is the magic field
found at the start of plane 0's out-of-band area (io->buf + io->pg_sz,
the memcpy into struct app_magic).  pg is the current page; fuel bounds
the do-while iteration count (pg_per_blk + 1 iterations suffice for every
positive offset), and the exhausted-fuel marker -2 stands for the
non-termination of the C loop when offset = 0.  In the loop guard
pg < pg_per_blk - offset both sides are C ints; since the incremented pg
is at least offset, the truncated Nat subtraction decides the guard the
same way the int comparison does. -/
def scanFrom (pgPerBlk magic : Nat) (read : Nat → Option Nat) (offset : Nat) :
    Nat → Nat → Int
  | 0, _ => -2
  | fuel + 1, pg =>
    match read pg with
    | none => -1
    | some m =>
      if m ≠ magic then (pg : Int)
      else if pg + offset < pgPerBlk - offset then
        scanFrom pgPerBlk magic read offset fuel (pg + offset)
      else ((pg + offset : Nat) : Int)

/-- Recency scan (app_blk_current_page, app_core.c lines 142-175).
ioGiven tells whether the caller passed an io buffer, allocOk whether the
internal app_alloc_pg_io would succeed; blk_id is fixed through the scan
and offset is the page stride. -/
def app_blk_current_page (g : Geometry) (magic : Nat)
    (read : Nat → Nat → Option Nat) (ioGiven allocOk : Bool)
    (blk_id offset : Nat) : Int :=
  if ioGiven = false ∧ allocOk = false then -1
  else scanFrom g.pg_per_blk magic (read blk_id) offset (g.pg_per_blk + 1) 0

/-- Concrete single-plane geometry with 8 pages per block for the scanner
instances. -/
def gC1 : Geometry :=
  { n_of_planes := 1, pg_size := 4, sec_size := 4, sec_per_pg := 1,
    sec_oob_sz := 4, pg_per_blk := 8, blk_per_lun := 4, sec_per_pl_pg := 1 }

/-- Concrete read oracle: page 0 carries magic 1, every later page reads
successfully without the stamp. -/
def readC1 : Nat → Nat → Option Nat := fun _ pg => if pg = 0 then some 1 else some 0

/-- Concrete read oracle: pages 0, 1 and 2 carry magic 1, page 3 reads
successfully without the stamp. -/
def readC1w : Nat → Nat → Option Nat := fun _ pg => if pg < 3 then some 1 else some 0

/-- Concrete read oracle: every page reads successfully without the stamp. -/
def readC1z : Nat → Nat → Option Nat := fun _ _ => some 0

/-- Allocation / release event of app_alloc_pg_io; the Nat tag numbers the
allocation calls of the function in program order: 0 the struct
app_io_data descriptor (malloc), 1 the contiguous buffer (calloc),
2 pl_vec, 3 oob_vec, 4 the sec_vec array, 5 + pl the per-plane sector
array sec_vec[pl]. -/
inductive AllocEv where
  | acq : Nat → AllocEv
  | rel : Nat → AllocEv
deriving DecidableEq

/-- Release path of the goto label FREE in app_alloc_pg_io (line 123). -/
def relFREE : List AllocEv := [AllocEv.rel 0]

/-- Release path of the goto label FREE_BUF (line 121), falling through. -/
def relFREE_BUF : List AllocEv := AllocEv.rel 1 :: relFREE

/-- Release path of the goto label FREE_VEC (line 119), falling through. -/
def relFREE_VEC : List AllocEv := AllocEv.rel 2 :: relFREE_BUF

/-- Release path of the goto label FREE_OOB (line 117), falling through. -/
def relFREE_OOB : List AllocEv := AllocEv.rel 3 :: relFREE_VEC

/-- Release path of the goto label FREE_SEC (lines 111-116) entered with
the loop counter pl: frees sec_vec[pl-1] down to sec_vec[0], then the
sec_vec array, then falls through FREE_OOB. -/
def relFREE_SEC (pl : Nat) : List AllocEv :=
  (List.range pl).reverse.map (fun p => AllocEv.rel (5 + p)) ++
    AllocEv.rel 4 :: relFREE_OOB

/-- Per-plane allocation loop of app_alloc_pg_io (lines 101-105) with its
FREE_SEC unwind; ok tells whether a given allocation call succeeds, acc
holds the allocations already performed, in program order. -/
def allocPlanesLoop (ok : Nat → Bool) :
    Nat → Nat → List AllocEv → Option Unit × List AllocEv
  | 0, _, acc => (some (), acc)
  | rem + 1, pl, acc =>
    if ok (5 + pl) = true then
      allocPlanesLoop ok rem (pl + 1) (acc ++ [AllocEv.acq (5 + pl)])
    else (none, acc ++ relFREE_SEC pl)

/-- Allocation behaviour of app_alloc_pg_io (app_core.c lines 67-126):
some () on success with the trace of performed allocations, none on
failure with the trace of allocations followed by the unwind releases. -/
def app_alloc_pg_io_trace (n_pl : Nat) (ok : Nat → Bool) :
    Option Unit × List AllocEv :=
  if ok 0 = false then (none, []) else
  if ok 1 = false then (none, AllocEv.acq 0 :: relFREE) else
  if ok 2 = false then (none, [AllocEv.acq 0, AllocEv.acq 1] ++ relFREE_BUF) else
  if ok 3 = false then
    (none, [AllocEv.acq 0, AllocEv.acq 1, AllocEv.acq 2] ++ relFREE_VEC) else
  if ok 4 = false then
    (none, [AllocEv.acq 0, AllocEv.acq 1, AllocEv.acq 2, AllocEv.acq 3] ++ relFREE_OOB)
  else
    allocPlanesLoop ok n_pl 0
      [AllocEv.acq 0, AllocEv.acq 1, AllocEv.acq 2, AllocEv.acq 3, AllocEv.acq 4]

/-- Sizes computed by app_alloc_pg_io before its allocations (app_core.c
lines 80-85); field names follow struct app_io_data.  buf models the
calloc-ed contiguous buffer by its byte contents (all zero). -/
structure AppIoData where
  n_pl : Nat
  pg_sz : Nat
  meta_sz : Nat
  buf_sz : Nat
  buf : Nat → Nat

/-- Field computation of app_alloc_pg_io (lines 80-85): meta_sz is
sec_oob_sz * sec_per_pg, buf_sz is (pg_sz + meta_sz) * n_pl and the
buffer is zero-filled. -/
def app_alloc_io_data (g : Geometry) : AppIoData :=
  { n_pl := g.n_of_planes
    pg_sz := g.pg_size
    meta_sz := g.sec_oob_sz * g.sec_per_pg
    buf_sz := (g.pg_size + g.sec_oob_sz * g.sec_per_pg) * g.n_of_planes
    buf := fun _ => 0 }

/-- Pointer tables of struct app_io_data, as byte offsets into the
contiguous buffer: pl_vec indexed by plane, oob_vec indexed by
sec_per_pg * pl + sec, sec_vec indexed by (plane, sector).  The initial
tables are arbitrary (the C arrays are malloc-ed uninitialised). -/
structure PrepSt where
  pl_vec : Nat → Nat
  oob_vec : Nat → Nat
  sec_vec : Nat → Nat → Nat

/-- Body of the inner sector loop of app_pg_io_prepare (lines 57-61):
writes oob_vec[sec_per_pg * pl + sec] and sec_vec[pl][sec]. -/
def prepInnerStep (g : Geometry) (d : AppIoData) (pl : Nat)
    (st : PrepSt) (sec : Nat) : PrepSt :=
  { st with
    oob_vec := fun i =>
      if i = g.sec_per_pg * pl + sec then st.pl_vec pl + d.pg_sz + g.sec_oob_sz * sec
      else st.oob_vec i
    sec_vec := fun p s =>
      if p = pl ∧ s = sec then st.pl_vec pl + g.sec_size * sec else st.sec_vec p s }

/-- Body of the outer plane loop of app_pg_io_prepare (lines 53-64):
sets pl_vec[pl], runs the sector loop, then writes the sentinel
sec_vec[pl][sec_per_pg] = oob_vec[sec_per_pg * pl]. -/
def prepOuterStep (g : Geometry) (d : AppIoData) (st : PrepSt) (pl : Nat) : PrepSt :=
  let st1 := { st with pl_vec := fun p =>
    if p = pl then pl * (d.buf_sz / d.n_pl) else st.pl_vec p }
  let st2 := (List.range g.sec_per_pg).foldl (prepInnerStep g d pl) st1
  { st2 with sec_vec := fun p s =>
    if p = pl ∧ s = g.sec_per_pg then st2.oob_vec (g.sec_per_pg * pl)
    else st2.sec_vec p s }

/-- Pointer preparation app_pg_io_prepare (app_core.c lines 48-65). -/
def app_pg_io_prepare (g : Geometry) (d : AppIoData) (st0 : PrepSt) : PrepSt :=
  (List.range d.n_pl).foldl (prepOuterStep g d) st0

/-- Concrete failure oracle for the allocation witness: every allocation
call succeeds except call 6 (the second per-plane sector array). -/
def okC5 : Nat → Bool := fun j => if j = 6 then false else true

/-- Concrete arbitrary initial pointer tables for the layout witness. -/
def prepSt0 : PrepSt := { pl_vec := fun _ => 0, oob_vec := fun _ => 0, sec_vec := fun _ _ => 0 }

/-- Concrete geometry used by the witnesses: 2 planes, 8-byte pages of two
4-byte sectors, 4 bytes of OOB per sector, 4 pages per block, 3 blocks
per lun. -/
def gW : Geometry :=
  { n_of_planes := 2, pg_size := 8, sec_size := 4, sec_per_pg := 2,
    sec_oob_sz := 4, pg_per_blk := 4, blk_per_lun := 3, sec_per_pl_pg := 4 }

/-- Transfer direction of app_nvm_seq_transfer: APP_TRANS_TO_NVM or
APP_TRANS_FROM_NVM (the constants live in appnvm.h, outside src/). -/
inductive Dir where
  | toNVM
  | fromNVM
deriving DecidableEq

/-- Memory state threaded through app_nvm_seq_transfer: the caller's flat
table user_buf (byte offset to byte), the per-plane I/O buffers pl_vec of
the app_io_data (plane, byte offset to byte), the flash pages of the
addressed (lun, block) as (page, plane, byte offset to byte), and the
caller's ppa struct, which lives in the caller's memory while the
function works on its private copy ppa_io. -/
structure SeqSt where
  user : Nat → Nat
  planes : Nat → Nat → Nat
  flash : Nat → Nat → Nat → Nat
  cppa : PPA

/-- Per-plane copy loop of app_nvm_seq_transfer (app_core.c lines
230-250) for page index i: rem planes remain, pl is the current plane,
el is ent_left.  trf is trf_sz in bytes, base is the byte offset
pg_ent_sz * i + pl * (pg_ent_sz / n_pl) into the flat table; the memcpy
moves trf bytes between the flat table and plane pl's buffer; ent_left
is then decremented and the loop breaks once it reaches zero. -/
def planeLoop (n_pl ent_per_pg entry_sz : Nat) (dir : Dir) (i : Nat) :
    Nat → Nat → SeqSt → Nat → SeqSt × Nat
  | 0, _, s, el => (s, el)
  | rem + 1, pl, s, el =>
    let pg_ent_sz := ent_per_pg * entry_sz
    let epp := ent_per_pg / n_pl
    let trf := if epp ≤ el then epp * entry_sz else el * entry_sz
    let base := pg_ent_sz * i + pl * (pg_ent_sz / n_pl)
    let s2 :=
      match dir with
      | Dir.toNVM =>
        { s with planes := fun p j =>
            if p = pl ∧ j < trf then s.user (base + j) else s.planes p j }
      | Dir.fromNVM =>
        { s with user := fun b =>
            if base ≤ b ∧ b < base + trf then s.planes pl (b - base) else s.user b }
    let el2 := if epp ≤ el then el - epp else 0
    if el2 = 0 then (s2, el2)
    else planeLoop n_pl ent_per_pg entry_sz dir i rem (pl + 1) s2 el2

/-- Page loop of app_nvm_seq_transfer (lines 222-256).  rdFl and wrFl
give, for each page, the plane at which the underlying app_pg_io_switch
read or write stops with an error (a value of at least n_pl means every
plane succeeded, matching the plane iteration of app_io_rsv_blk and
app_pg_io): a read loads flash data into the plane buffers of the planes
before the failing one, a write stores the plane buffers into the flash
page likewise, and a failing page I/O aborts the transfer with -1.  The
result is (status, memory state, remaining ent_left). -/
def pageLoop (n_pl ent_per_pg entry_sz : Nat) (dir : Dir)
    (rdFl wrFl : Nat → Nat) (start_pg : Nat) :
    Nat → Nat → SeqSt → Nat → Int × SeqSt × Nat
  | 0, _, s, el => (0, s, el)
  | rem + 1, i, s, el =>
    let pg := start_pg + i
    match dir with
    | Dir.fromNVM =>
      let s1 := { s with planes := fun p j =>
          if p < (min (rdFl pg) n_pl) then s.flash pg p j else s.planes p j }
      if rdFl pg < n_pl then (-1, s1, el)
      else
        let r := planeLoop n_pl ent_per_pg entry_sz Dir.fromNVM i n_pl 0 s1 el
        pageLoop n_pl ent_per_pg entry_sz Dir.fromNVM rdFl wrFl start_pg rem
          (i + 1) r.1 r.2
    | Dir.toNVM =>
      let r := planeLoop n_pl ent_per_pg entry_sz Dir.toNVM i n_pl 0 s el
      let s2 := { r.1 with flash := fun q p j =>
          (if q = pg ∧ p < (min (wrFl pg) n_pl) then r.1.planes p j
            else r.1.flash q p j) }
      if wrFl pg < n_pl then (-1, s2, r.2)
      else pageLoop n_pl ent_per_pg entry_sz Dir.toNVM rdFl wrFl start_pg rem
        (i + 1) s2 r.2

/-- Sequential table transfer app_nvm_seq_transfer (app_core.c lines
208-259): copies the caller's ppa into the private ppa_io (memcpy, line
218), takes start_pg from it and runs the page loop over pgs pages; only
ppa_io's page field is ever reassigned.  Returns (status, final memory
state). -/
def app_nvm_seq_transfer (n_pl ent_per_pg entry_sz : Nat) (dir : Dir)
    (rdFl wrFl : Nat → Nat) (pgs el : Nat) (s : SeqSt) : Int × SeqSt :=
  let start_pg := s.cppa.pg
  let r := pageLoop n_pl ent_per_pg entry_sz dir rdFl wrFl start_pg pgs 0 s el
  (r.1, r.2.1)

/-- Concrete initial memory for the round-trip witness: table bytes b + 1,
plane buffers and flash zeroed, start address block 2 page 0. -/
def s0W : SeqSt :=
  { user := fun b => b + 1, planes := fun _ _ => 0, flash := fun _ _ _ => 0,
    cppa := ⟨0, 0, 2, 0, 0⟩ }

/-- Concrete always-succeeding per-page failing-plane oracle for two
planes (2 means both planes succeed). -/
def flW : Nat → Nat := fun _ => 2

/-- C3: for every in-bounds physical address and status value,
app_ftl_set_bbtbl returns 0, invokes the registered flush exactly once
when the stored byte differs from the new value and never when it is
already equal, and the in-memory table holds the new value afterwards,
independently of the flush status flushRet (so also when the flush fails). -/
theorem c3_set_bbtbl_flush (g : Geometry) (tbl : Nat → Nat) (flushRet : Int)
    (ppa : PPA) (value : Nat)
    (hin : ppa.blk * g.n_of_planes + ppa.pl < g.blk_per_lun * g.n_of_planes) :
    (app_ftl_set_bbtbl g tbl flushRet ppa value).1 = 0 ∧
    (app_ftl_set_bbtbl g tbl flushRet ppa value).2.2.1 =
      (if tbl (ppa.lun * g.blk_per_lun * g.n_of_planes +
          (ppa.blk * g.n_of_planes + ppa.pl)) = value then 0 else 1) ∧
    (app_ftl_set_bbtbl g tbl flushRet ppa value).2.1
        (ppa.lun * g.blk_per_lun * g.n_of_planes +
          (ppa.blk * g.n_of_planes + ppa.pl)) = value := by
  have hno : ¬ (((ppa.blk * g.n_of_planes + ppa.pl : Nat) : Int) >
      ((g.blk_per_lun * g.n_of_planes : Nat) : Int) - 1) := by
    omega
  unfold app_ftl_set_bbtbl
  rw [if_neg hno]
  by_cases h : tbl (ppa.lun * g.blk_per_lun * g.n_of_planes +
      (ppa.blk * g.n_of_planes + ppa.pl)) = value
  · simp [h]
  · simp [h]

/-- C3 witness: concrete instance; the stored byte 0 differs from the new
value 7, the flush status is -1 (failure), the call still returns 0, the
flush is invoked exactly once and the table holds 7. -/
theorem c3_set_bbtbl_flush_w :
    (0 * gW.n_of_planes + 1 < gW.blk_per_lun * gW.n_of_planes) ∧
    ((app_ftl_set_bbtbl gW (fun _ => 0) (-1) ⟨0, 1, 0, 1, 0⟩ 7).1 = 0 ∧
     (app_ftl_set_bbtbl gW (fun _ => 0) (-1) ⟨0, 1, 0, 1, 0⟩ 7).2.2.1 =
       (if (fun _ => 0 : Nat → Nat) (1 * gW.blk_per_lun * gW.n_of_planes +
           (0 * gW.n_of_planes + 1)) = 7 then 0 else 1) ∧
     (app_ftl_set_bbtbl gW (fun _ => 0) (-1) ⟨0, 1, 0, 1, 0⟩ 7).2.1
         (1 * gW.blk_per_lun * gW.n_of_planes + (0 * gW.n_of_planes + 1)) = 7) :=
  ⟨by decide, c3_set_bbtbl_flush gW (fun _ => 0) (-1) ⟨0, 1, 0, 1, 0⟩ 7 (by decide)⟩

/-- C7: a get call whose length is not blocks_per_lun * num_planes fails
with -1 and leaves the output buffer untouched; likewise, whenever one of
the two pointer checks fails (for any length, so also a valid one), the
call returns -1 with the buffer untouched; with the valid length and
valid pointers it returns 0 and copies exactly the per-lun slice starting
at flat index lun * blk_per_lun * n_of_planes. -/
theorem c7_get_bbtbl (g : Geometry) (tbl : Nat → Nat) (bbtblBad chBad : Bool)
    (out : Nat → Nat) (ppa : PPA) (nb : Nat)
    (h16 : g.n_of_planes < 65536) :
    (nb ≠ g.blk_per_lun * g.n_of_planes →
      app_ftl_get_bbtbl g tbl bbtblBad chBad out ppa nb = (-1, out)) ∧
    (bbtblBad = true ∨ chBad = true →
      app_ftl_get_bbtbl g tbl bbtblBad chBad out ppa nb = (-1, out)) ∧
    (bbtblBad = false → chBad = false →
      nb = g.blk_per_lun * g.n_of_planes →
      (app_ftl_get_bbtbl g tbl bbtblBad chBad out ppa nb).1 = 0 ∧
      ∀ k, k < nb →
        (app_ftl_get_bbtbl g tbl bbtblBad chBad out ppa nb).2 k =
          tbl (ppa.lun * g.blk_per_lun * g.n_of_planes + k)) := by
  have hmod : g.n_of_planes % 65536 = g.n_of_planes := Nat.mod_eq_of_lt h16
  refine ⟨?_, ?_, ?_⟩
  · intro hne
    unfold app_ftl_get_bbtbl
    rw [if_pos]
    right; right
    rw [hmod]
    exact hne
  · intro hbad
    unfold app_ftl_get_bbtbl
    rw [if_pos]
    rcases hbad with h | h
    · exact Or.inl h
    · exact Or.inr (Or.inl h)
  · intro hb hc heq
    unfold app_ftl_get_bbtbl
    rw [if_neg]
    · refine ⟨rfl, ?_⟩
      intro k hk
      simp only
      rw [if_pos hk]
    · rw [hmod, hb, hc]
      push_neg
      exact ⟨Bool.false_ne_true, Bool.false_ne_true, heq⟩

/-- C7 witness: with length 5 (the valid length being 6 =
blk_per_lun * n_of_planes) the get fails with -1 and the buffer is
untouched; with the valid length 6 but a failing bbtbl pointer check it
also fails with -1 and the buffer is untouched; with the valid length 6
and valid pointers it returns 0 and copies the lun-1 slice. -/
theorem c7_get_bbtbl_w :
    (gW.n_of_planes < 65536) ∧
    ((5 : Nat) ≠ gW.blk_per_lun * gW.n_of_planes →
      app_ftl_get_bbtbl gW (fun a => a) false false (fun _ => 99) ⟨0, 1, 0, 0, 0⟩ 5 =
        (-1, fun _ => 99)) ∧
    (true = true ∨ false = true →
      app_ftl_get_bbtbl gW (fun a => a) true false (fun _ => 99) ⟨0, 1, 0, 0, 0⟩ 6 =
        (-1, fun _ => 99)) ∧
    (false = false → false = false →
      (6 : Nat) = gW.blk_per_lun * gW.n_of_planes →
      (app_ftl_get_bbtbl gW (fun a => a) false false (fun _ => 99) ⟨0, 1, 0, 0, 0⟩ 6).1 = 0 ∧
      ∀ k, k < 6 →
        (app_ftl_get_bbtbl gW (fun a => a) false false (fun _ => 99) ⟨0, 1, 0, 0, 0⟩ 6).2 k =
          (fun a => a : Nat → Nat) (1 * gW.blk_per_lun * gW.n_of_planes + k)) :=
  ⟨by decide,
   (c7_get_bbtbl gW (fun a => a) false false (fun _ => 99) ⟨0, 1, 0, 0, 0⟩ 5
     (by decide)).1,
   (c7_get_bbtbl gW (fun a => a) true false (fun _ => 99) ⟨0, 1, 0, 0, 0⟩ 6
     (by decide)).2.1,
   (c7_get_bbtbl gW (fun a => a) false false (fun _ => 99) ⟨0, 1, 0, 0, 0⟩ 6
     (by decide)).2.2⟩

/-- C9: get and set use the same flat index formula
lun * blk_per_lun * n_of_planes + blk * n_of_planes + pl: after setting
value at an in-bounds (lun, blk, pl), a get for the same lun with the
valid length returns a slice whose byte at index blk * n_of_planes + pl
is that value. -/
theorem c9_set_then_get (g : Geometry) (tbl : Nat → Nat) (flushRet : Int)
    (out : Nat → Nat) (ppa ppa2 : PPA) (value : Nat)
    (h16 : g.n_of_planes < 65536)
    (hlun : ppa2.lun = ppa.lun)
    (hin : ppa.blk * g.n_of_planes + ppa.pl < g.blk_per_lun * g.n_of_planes) :
    (app_ftl_get_bbtbl g (app_ftl_set_bbtbl g tbl flushRet ppa value).2.1
        false false out ppa2 (g.blk_per_lun * g.n_of_planes)).2
      (ppa.blk * g.n_of_planes + ppa.pl) = value := by
  have hmod : g.n_of_planes % 65536 = g.n_of_planes := Nat.mod_eq_of_lt h16
  have hno : ¬ (((ppa.blk * g.n_of_planes + ppa.pl : Nat) : Int) >
      ((g.blk_per_lun * g.n_of_planes : Nat) : Int) - 1) := by
    omega
  unfold app_ftl_get_bbtbl
  rw [if_neg]
  · simp only
    rw [if_pos hin]
    unfold app_ftl_set_bbtbl
    rw [if_neg hno]
    by_cases h : tbl (ppa.lun * g.blk_per_lun * g.n_of_planes +
        (ppa.blk * g.n_of_planes + ppa.pl)) = value
    · simp [h, hlun]
    · simp [h, hlun]
  · rw [hmod]
    push_neg
    exact ⟨Bool.false_ne_true, Bool.false_ne_true, rfl⟩

/-- C9 witness: set 7 at (lun 1, blk 0, pl 1) then get for lun 1; the byte
at index 0 * n_of_planes + 1 of the returned slice is 7. -/
theorem c9_set_then_get_w :
    (gW.n_of_planes < 65536) ∧ ((1 : Nat) = 1) ∧
    (0 * gW.n_of_planes + 1 < gW.blk_per_lun * gW.n_of_planes) ∧
    (app_ftl_get_bbtbl gW
        (app_ftl_set_bbtbl gW (fun _ => 0) (-1) ⟨0, 1, 0, 1, 0⟩ 7).2.1
        false false (fun _ => 99) ⟨0, 1, 2, 0, 0⟩
        (gW.blk_per_lun * gW.n_of_planes)).2
      (0 * gW.n_of_planes + 1) = 7 :=
  ⟨by decide, rfl, by decide,
   c9_set_then_get gW (fun _ => 0) (-1) (fun _ => 99) ⟨0, 1, 0, 1, 0⟩ ⟨0, 1, 2, 0, 0⟩ 7
     (by decide) rfl (by decide)⟩

/-- Helper: prepending the image of pl to a shifted range map gives the
range map of the successor length. -/
theorem map_range_shift {α : Type} (f : Nat → α) (pl n : Nat) :
    f pl :: (List.range n).map (fun q => f (pl + 1 + q)) =
      (List.range (n + 1)).map (fun q => f (pl + q)) := by
  rw [List.range_succ_eq_map]
  simp only [List.map_cons, List.map_map, Nat.add_zero]
  congr 1
  apply List.map_congr_left
  intro a _
  simp only [Function.comp_apply]
  congr 1
  omega

/-- Helper: if every submission from plane pl on succeeds, the loop issues
one command per remaining plane, in increasing plane order, and ends with
status 0 (or the incoming ret when no plane is left). -/
theorem pgIoLoop_all_ok (submit : MmgrCmd → Int) (mk : Nat → MmgrCmd) :
    ∀ (rem pl : Nat) (ret : Int) (acc : List MmgrCmd),
      (∀ q, q < rem → submit (mk (pl + q)) = 0) →
      pgIoLoop submit mk rem pl ret acc =
        ((if rem = 0 then ret else 0),
          acc.reverse ++ (List.range rem).map (fun q => mk (pl + q))) := by
  intro rem
  induction rem with
  | zero => intro pl ret acc _; simp [pgIoLoop]
  | succ n ih =>
    intro pl ret acc h
    have h0 : submit (mk pl) = 0 := by simpa using h 0 (Nat.succ_pos n)
    simp only [pgIoLoop]
    rw [if_neg (by simp [h0])]
    rw [ih (pl + 1) (submit (mk pl)) (mk pl :: acc)
        (fun q hq => by
          have h2 := h (q + 1) (Nat.succ_lt_succ hq)
          rw [show pl + (q + 1) = pl + 1 + q by omega] at h2
          exact h2)]
    congr 1
    · by_cases hn : n = 0
      · simp [hn, h0]
      · simp [hn]
    · rw [List.reverse_cons, List.append_assoc, List.singleton_append,
        map_range_shift]

/-- Helper: if submissions succeed up to plane pl + k and fail with e at
plane pl + k, the loop stops there, having issued exactly the commands for
planes pl, ..., pl + k, and returns e. -/
theorem pgIoLoop_first_fail (submit : MmgrCmd → Int) (mk : Nat → MmgrCmd) :
    ∀ (rem k pl : Nat) (ret e : Int) (acc : List MmgrCmd),
      k < rem →
      (∀ q, q < k → submit (mk (pl + q)) = 0) →
      submit (mk (pl + k)) = e → e ≠ 0 →
      pgIoLoop submit mk rem pl ret acc =
        (e, acc.reverse ++ (List.range (k + 1)).map (fun q => mk (pl + q))) := by
  intro rem
  induction rem with
  | zero => intro k pl ret e acc hk; omega
  | succ n ih =>
    intro k pl ret e acc hk hok hfail hne
    cases k with
    | zero =>
      simp only [pgIoLoop]
      rw [Nat.add_zero] at hfail
      rw [if_pos (by simp [hfail, hne])]
      simp [hfail, List.range_succ]
    | succ k2 =>
      have h0 : submit (mk (pl + 0)) = 0 := hok 0 (Nat.succ_pos k2)
      simp only [pgIoLoop]
      rw [Nat.add_zero] at h0
      rw [if_neg (by simp [h0])]
      rw [ih k2 (pl + 1) (submit (mk pl)) e (mk pl :: acc)
          (by omega)
          (fun q hq => by
            have := hok (q + 1) (Nat.succ_lt_succ hq)
            rw [show pl + (q + 1) = pl + 1 + q by omega] at this
            exact this)
          (by rw [show pl + 1 + k2 = pl + (k2 + 1) by omega]; exact hfail)
          hne]
      congr 1
      rw [List.reverse_cons, List.append_assoc, List.singleton_append,
        map_range_shift]

/-- C4: a page operation via app_pg_io issues exactly num_planes commands,
each with the requested blk/pg/lun and the channel id, plane ids 0 through
num_planes - 1 in increasing order, returning 0 when all succeed; when the
command of some plane k is the first to fail with status e, the loop stops
there: exactly the commands for planes 0..k were issued, no later plane is
attempted, nothing is rolled back, and e is returned. -/
theorem c4_app_pg_io_planes (g : Geometry) (ch_id : Nat)
    (submit : Nat → MmgrCmd → Int) (cmdtype : Nat) (ppa : PPA) :
    ((∀ q, q < g.n_of_planes →
        submit cmdtype ⟨ch_id, ppa.lun, ppa.blk, q, ppa.pg⟩ = 0) →
      (app_pg_io g ch_id submit true cmdtype ppa).2 =
        (List.range g.n_of_planes).map
          (fun pl => ⟨ch_id, ppa.lun, ppa.blk, pl, ppa.pg⟩) ∧
      (0 < g.n_of_planes → (app_pg_io g ch_id submit true cmdtype ppa).1 = 0)) ∧
    (∀ k e, k < g.n_of_planes →
      (∀ q, q < k → submit cmdtype ⟨ch_id, ppa.lun, ppa.blk, q, ppa.pg⟩ = 0) →
      submit cmdtype ⟨ch_id, ppa.lun, ppa.blk, k, ppa.pg⟩ = e → e ≠ 0 →
      app_pg_io g ch_id submit true cmdtype ppa =
        (e, (List.range (k + 1)).map
          (fun pl => ⟨ch_id, ppa.lun, ppa.blk, pl, ppa.pg⟩))) := by
  constructor
  · intro hok
    unfold app_pg_io
    rw [if_neg (by simp)]
    rw [pgIoLoop_all_ok _ _ g.n_of_planes 0 (-1) []
        (fun q hq => by simpa using hok q hq)]
    refine ⟨by simp, ?_⟩
    intro hpos
    rw [if_neg (by omega)]
  · intro k e hk hok hfail hne
    unfold app_pg_io
    rw [if_neg (by simp)]
    rw [pgIoLoop_first_fail _ _ g.n_of_planes k 0 (-1) e []
        (by omega) (fun q hq => by simpa using hok q hq)
        (by simpa using hfail) hne]
    simp

/-- C4 witness: 2-plane geometry; with an always-succeeding oracle exactly
the two commands for planes 0 and 1 are issued and 0 is returned; with an
oracle failing at plane 1 with status 3, only planes 0 and 1 were issued
and 3 is returned. -/
theorem c4_app_pg_io_planes_w :
    ((app_pg_io gW 5 (fun _ _ => 0) true 0 ⟨0, 1, 2, 0, 3⟩).2 =
        (List.range gW.n_of_planes).map (fun pl => ⟨5, 1, 2, pl, 3⟩) ∧
      (0 < gW.n_of_planes →
        (app_pg_io gW 5 (fun _ _ => 0) true 0 ⟨0, 1, 2, 0, 3⟩).1 = 0)) ∧
    app_pg_io gW 5 (fun _ c => if c.pl = 1 then 3 else 0) true 0 ⟨0, 1, 2, 0, 3⟩ =
      (3, (List.range (1 + 1)).map (fun pl => ⟨5, 1, 2, pl, 3⟩)) :=
  ⟨(c4_app_pg_io_planes gW 5 (fun _ _ => 0) 0 ⟨0, 1, 2, 0, 3⟩).1
      (fun q _ => rfl),
   (c4_app_pg_io_planes gW 5 (fun _ c => if c.pl = 1 then 3 else 0) 0
        ⟨0, 1, 2, 0, 3⟩).2 1 3 (by decide)
      (fun q hq => by interval_cases q; rfl) rfl (by decide)⟩

/-- C8: the reserved-block path app_io_rsv_blk follows the same plane
iteration contract as app_pg_io (planes 0..num_planes-1 in increasing
order, stop at the first error and return it) but every issued command
carries lun 0, for every command type, block and page. -/
theorem c8_rsv_blk_lun0 (g : Geometry) (ch_id : Nat)
    (submit : Nat → MmgrCmd → Int) (cmdtype : Nat) (blk pg : Nat) :
    ((∀ q, q < g.n_of_planes →
        submit cmdtype ⟨ch_id, 0, blk, q, pg⟩ = 0) →
      (app_io_rsv_blk g ch_id submit true cmdtype blk pg).2 =
        (List.range g.n_of_planes).map (fun pl => ⟨ch_id, 0, blk, pl, pg⟩) ∧
      (0 < g.n_of_planes →
        (app_io_rsv_blk g ch_id submit true cmdtype blk pg).1 = 0)) ∧
    (∀ k e, k < g.n_of_planes →
      (∀ q, q < k → submit cmdtype ⟨ch_id, 0, blk, q, pg⟩ = 0) →
      submit cmdtype ⟨ch_id, 0, blk, k, pg⟩ = e → e ≠ 0 →
      app_io_rsv_blk g ch_id submit true cmdtype blk pg =
        (e, (List.range (k + 1)).map (fun pl => ⟨ch_id, 0, blk, pl, pg⟩))) ∧
    (∀ c, c ∈ (app_io_rsv_blk g ch_id submit true cmdtype blk pg).2 →
      c.lun = 0) := by
  refine ⟨?_, ?_, ?_⟩
  · intro hok
    unfold app_io_rsv_blk
    rw [if_neg (by simp)]
    rw [pgIoLoop_all_ok _ _ g.n_of_planes 0 (-1) []
        (fun q hq => by simpa using hok q hq)]
    refine ⟨by simp, ?_⟩
    intro hpos
    rw [if_neg (by omega)]
  · intro k e hk hok hfail hne
    unfold app_io_rsv_blk
    rw [if_neg (by simp)]
    rw [pgIoLoop_first_fail _ _ g.n_of_planes k 0 (-1) e []
        (by omega) (fun q hq => by simpa using hok q hq)
        (by simpa using hfail) hne]
    simp
  · intro c hc
    unfold app_io_rsv_blk at hc
    rw [if_neg (by simp)] at hc
    have : ∀ (rem pl : Nat) (ret : Int) (acc : List MmgrCmd),
        (∀ d, d ∈ acc → d.lun = 0) →
        c ∈ (pgIoLoop (submit cmdtype)
          (fun pl => { blk := blk, pl := pl, ch := ch_id, lun := 0, pg := pg })
          rem pl ret acc).2 → c.lun = 0 := by
      intro rem
      induction rem with
      | zero =>
        intro pl ret acc hacc hmem
        simp only [pgIoLoop, List.mem_reverse] at hmem
        exact hacc c hmem
      | succ n ih =>
        intro pl ret acc hacc hmem
        simp only [pgIoLoop] at hmem
        split at hmem
        · simp only [List.mem_reverse, List.mem_cons] at hmem
          rcases hmem with h | h
          · rw [h]
          · exact hacc c h
        · exact ih (pl + 1) _ _
            (fun d hd => by
              rcases List.mem_cons.mp hd with h | h
              · rw [h]
              · exact hacc d h) hmem
    exact this g.n_of_planes 0 (-1) [] (fun d hd => absurd hd (List.not_mem_nil d)) hc

/-- C8 witness: 2-plane geometry, caller lun would be irrelevant: both
issued commands carry lun 0 and the trace and status follow the plane
contract; with a failure at plane 0 only that command is issued. -/
theorem c8_rsv_blk_lun0_w :
    ((app_io_rsv_blk gW 5 (fun _ _ => 0) true 1 2 3).2 =
        (List.range gW.n_of_planes).map (fun pl => ⟨5, 0, 2, pl, 3⟩) ∧
      (0 < gW.n_of_planes →
        (app_io_rsv_blk gW 5 (fun _ _ => 0) true 1 2 3).1 = 0)) ∧
    app_io_rsv_blk gW 5 (fun _ c => if c.pl = 0 then 7 else 0) true 1 2 3 =
      (7, (List.range (0 + 1)).map (fun pl => ⟨5, 0, 2, pl, 3⟩)) :=
  ⟨(c8_rsv_blk_lun0 gW 5 (fun _ _ => 0) 1 2 3).1 (fun q _ => rfl),
   (c8_rsv_blk_lun0 gW 5 (fun _ c => if c.pl = 0 then 7 else 0) 1 2 3).2.1 0 7
     (by decide) (fun q hq => absurd hq (Nat.not_lt_zero q)) rfl (by decide)⟩

/-- Helper: as long as the stamp matches and the guard holds, the scan
advances k strides, consuming k units of fuel. -/
theorem scan_steps (pgPerBlk magic : Nat) (read : Nat → Option Nat) (offset : Nat) :
    ∀ (k fuel pg : Nat),
      (∀ j, j < k → read (pg + j * offset) = some magic) →
      (∀ j, j < k → pg + (j + 1) * offset < pgPerBlk - offset) →
      scanFrom pgPerBlk magic read offset (fuel + k) pg =
        scanFrom pgPerBlk magic read offset fuel (pg + k * offset) := by
  intro k
  induction k with
  | zero => intro fuel pg _ _; simp
  | succ n ih =>
    intro fuel pg hm hg
    have h0 : read pg = some magic := by simpa using hm 0 (Nat.succ_pos n)
    have hg0 : pg + offset < pgPerBlk - offset := by simpa using hg 0 (Nat.succ_pos n)
    rw [show fuel + (n + 1) = (fuel + n) + 1 by omega]
    simp only [scanFrom, h0]
    rw [if_neg (by simp), if_pos hg0]
    rw [ih fuel (pg + offset)
        (fun j hj => by
          have h2 := hm (j + 1) (Nat.succ_lt_succ hj)
          rw [show pg + (j + 1) * offset = pg + offset + j * offset by ring] at h2
          exact h2)
        (fun j hj => by
          have h2 := hg (j + 1) (Nat.succ_lt_succ hj)
          rw [show pg + (j + 1 + 1) * offset = pg + offset + (j + 1) * offset by ring] at h2
          exact h2)]
    congr 1
    ring

/-- C1 counterexample: stride 1 on an 8-page block; page 0 carries the
stamp (magic 1) and page 1 reads successfully without it, so the claim
demands the result 0 (the last matching page index), but the scan returns
1 (the first non-matching page index).  Likewise, with no stamp on page 0
and a successful read the claim demands the not-found indicator -1, but
the scan returns 0. -/
theorem c1_blk_current_page_cex :
    app_blk_current_page gC1 1 readC1 true true 3 1 = 1 ∧
    app_blk_current_page gC1 1 readC1 true true 3 1 ≠ 0 ∧
    app_blk_current_page gC1 1 readC1z true true 3 1 = 0 ∧
    app_blk_current_page gC1 1 readC1z true true 3 1 ≠ -1 := by decide

/-- C1 amended: the scan returns the page index at which it stopped, one
stride past the last matched page.  If pages 0, stride, ..., k*stride all
carry the stamp and page (k+1)*stride is still below the loop bound
pg_per_blk - stride, the scan reads it and returns (k+1)*stride when that
read succeeds without the stamp, or -1 when that read fails; if
(k+1)*stride falls outside the loop bound the scan returns (k+1)*stride
without reading it; when page 0 itself reads successfully without the
stamp the scan returns 0 (not a not-found indicator), and a failing first
read produces -1. -/
theorem c1_blk_current_page_amended (g : Geometry) (magic : Nat)
    (read : Nat → Nat → Option Nat) (blk offset : Nat) (hoff : 1 ≤ offset) :
    (∀ k, (∀ j, j ≤ k → read blk (j * offset) = some magic) →
      (k + 1) * offset < g.pg_per_blk - offset →
      ((∀ m, read blk ((k + 1) * offset) = some m → m ≠ magic →
          app_blk_current_page g magic read true true blk offset =
            (((k + 1) * offset : Nat) : Int)) ∧
       (read blk ((k + 1) * offset) = none →
          app_blk_current_page g magic read true true blk offset = -1))) ∧
    (∀ k, (∀ j, j ≤ k → read blk (j * offset) = some magic) →
      (∀ j, j < k → (j + 1) * offset < g.pg_per_blk - offset) →
      ¬ ((k + 1) * offset < g.pg_per_blk - offset) →
      app_blk_current_page g magic read true true blk offset =
        (((k + 1) * offset : Nat) : Int)) ∧
    (∀ m, read blk 0 = some m → m ≠ magic →
      app_blk_current_page g magic read true true blk offset = 0) ∧
    (read blk 0 = none →
      app_blk_current_page g magic read true true blk offset = -1) := by
  refine ⟨?_, ?_, ?_, ?_⟩
  · intro k hstamp hbound
    have hk1 : k + 1 ≤ (k + 1) * offset := Nat.le_mul_of_pos_right (k + 1) hoff
    have hkb : k + 1 ≤ g.pg_per_blk := by omega
    have hsteps := scan_steps g.pg_per_blk magic (read blk) offset (k + 1)
        (g.pg_per_blk - k) 0
        (fun j hj => by
          have := hstamp j (by omega)
          simpa using this)
        (fun j hj => by
          have hle : (j + 1) * offset ≤ (k + 1) * offset :=
            Nat.mul_le_mul_right offset (by omega)
          omega)
    rw [show g.pg_per_blk - k + (k + 1) = g.pg_per_blk + 1 by omega] at hsteps
    rw [Nat.zero_add] at hsteps
    have hf : g.pg_per_blk - k = (g.pg_per_blk - k - 1) + 1 := by omega
    constructor
    · intro m hm hne
      unfold app_blk_current_page
      rw [if_neg (by simp), hsteps, hf]
      simp only [scanFrom, hm]
      rw [if_pos hne]
    · intro hm
      unfold app_blk_current_page
      rw [if_neg (by simp), hsteps, hf]
      simp only [scanFrom, hm]
  · intro k hstamp hreach hbound
    have hkb : k ≤ g.pg_per_blk := by
      cases k with
      | zero => exact Nat.zero_le _
      | succ n =>
        have h1 := hreach n (Nat.lt_succ_self n)
        have h2 : n + 1 ≤ (n + 1) * offset := Nat.le_mul_of_pos_right (n + 1) hoff
        omega
    have hsteps := scan_steps g.pg_per_blk magic (read blk) offset k
        (g.pg_per_blk + 1 - k) 0
        (fun j hj => by
          have := hstamp j (by omega)
          simpa using this)
        (fun j hj => by simpa using hreach j hj)
    rw [show g.pg_per_blk + 1 - k + k = g.pg_per_blk + 1 by omega] at hsteps
    rw [Nat.zero_add] at hsteps
    have hf : g.pg_per_blk + 1 - k = (g.pg_per_blk - k) + 1 := by omega
    unfold app_blk_current_page
    rw [if_neg (by simp), hsteps, hf]
    have hk : read blk (k * offset) = some magic := hstamp k (Nat.le_refl k)
    simp only [scanFrom, hk]
    rw [if_neg (by simp)]
    rw [if_neg (by rw [show k * offset + offset = (k + 1) * offset by ring]; exact hbound)]
    rw [show k * offset + offset = (k + 1) * offset by ring]
  · intro m hm hne
    unfold app_blk_current_page
    rw [if_neg (by simp)]
    simp only [scanFrom, hm]
    rw [if_pos hne]
    rfl
  · intro hm
    unfold app_blk_current_page
    rw [if_neg (by simp)]
    simp only [scanFrom, hm]

/-- C1 amended witness: pages 0, 1, 2 carry the stamp, page 3 reads
without it, stride 1 on an 8-page block: the scan returns 3. -/
theorem c1_blk_current_page_amended_w :
    (1 ≤ 1) ∧
    app_blk_current_page gC1 1 readC1w true true 3 1 = (((2 + 1) * 1 : Nat) : Int) :=
  ⟨by decide,
   ((c1_blk_current_page_amended gC1 1 readC1w 3 1 (by decide)).1 2
       (by decide) (by decide)).1 0 rfl (by decide)⟩

/-- Helper: prepending the acquisition of plane pl to the shifted
acquisition list gives the acquisition list of the successor length. -/
theorem acq_shift (pl n : Nat) :
    AllocEv.acq (5 + pl) ::
        (List.range n).map (fun u => AllocEv.acq (5 + (pl + 1) + u)) =
      (List.range (n + 1)).map (fun u => AllocEv.acq (5 + pl + u)) := by
  rw [List.range_succ_eq_map]
  simp only [List.map_cons, List.map_map, Nat.add_zero]
  congr 1
  apply List.map_congr_left
  intro a _
  simp only [Function.comp_apply]
  congr 1
  omega

/-- Helper: if the allocations of the first t planes succeed and the one of
plane pl + t fails, the plane loop records those t acquisitions and then
the FREE_SEC unwind entered with counter pl + t. -/
theorem allocPlanesLoop_fail (ok : Nat → Bool) :
    ∀ (t rem pl : Nat) (acc : List AllocEv),
      t < rem →
      (∀ u, u < t → ok (5 + pl + u) = true) →
      ok (5 + pl + t) = false →
      allocPlanesLoop ok rem pl acc =
        (none, acc ++ (List.range t).map (fun u => AllocEv.acq (5 + pl + u)) ++
          relFREE_SEC (pl + t)) := by
  intro t
  induction t with
  | zero =>
    intro rem pl acc hrem _ hfail
    cases rem with
    | zero => omega
    | succ r =>
      simp only [allocPlanesLoop]
      rw [if_neg (by simpa using hfail)]
      simp
  | succ n ih =>
    intro rem pl acc hrem hok hfail
    cases rem with
    | zero => omega
    | succ r =>
      simp only [allocPlanesLoop]
      rw [if_pos (by simpa using hok 0 (Nat.succ_pos n))]
      rw [ih r (pl + 1) (acc ++ [AllocEv.acq (5 + pl)]) (by omega)
          (fun u hu => by
            have h2 := hok (u + 1) (Nat.succ_lt_succ hu)
            rw [show 5 + pl + (u + 1) = 5 + (pl + 1) + u by omega] at h2
            exact h2)
          (by rw [show 5 + (pl + 1) + n = 5 + pl + (n + 1) by omega]; exact hfail)]
      congr 1
      rw [show pl + 1 + n = pl + (n + 1) by omega]
      simp only [List.append_assoc, List.singleton_append]
      rw [← acq_shift]

/-- Helper: the five fixed acquisitions, the per-plane acquisitions and
the FREE_SEC unwind together form the full reverse-release pattern. -/
theorem alloc_trace_assemble (k5 : Nat) :
    [AllocEv.acq 0, AllocEv.acq 1, AllocEv.acq 2, AllocEv.acq 3, AllocEv.acq 4] ++
      (List.range k5).map (fun u => AllocEv.acq (5 + u)) ++ relFREE_SEC k5 =
    (List.range (5 + k5)).map AllocEv.acq ++
      ((List.range (5 + k5)).reverse).map AllocEv.rel := by
  have h5 : List.range 5 = [0, 1, 2, 3, 4] := rfl
  rw [List.range_add, h5]
  simp only [List.map_append, List.map_map, List.reverse_append,
    List.map_cons, List.map_nil, relFREE_SEC, relFREE_OOB, relFREE_VEC,
    relFREE_BUF, relFREE, ← List.map_reverse, List.append_assoc]
  rfl

/-- C5: if the k-th allocation call of app_alloc_pg_io is the first to
fail (k counts the descriptor, the contiguous buffer, the three index
arrays and then one call per plane), the function returns the
out-of-memory indicator and its trace consists of the k successful
acquisitions followed by their releases in exactly the reverse order of
acquisition, so no allocation survives the call. -/
theorem c5_alloc_unwind (n_pl : Nat) (ok : Nat → Bool) (k : Nat)
    (hpre : ∀ j, j < k → ok j = true) (hk : ok k = false)
    (hkr : k < 5 + n_pl) :
    app_alloc_pg_io_trace n_pl ok =
      (none, (List.range k).map AllocEv.acq ++
        ((List.range k).reverse).map AllocEv.rel) := by
  match k, hpre, hk, hkr with
  | 0, hpre, hk, hkr =>
    unfold app_alloc_pg_io_trace
    rw [if_pos (by simpa using hk)]
    rfl
  | 1, hpre, hk, hkr =>
    unfold app_alloc_pg_io_trace
    rw [if_neg (by simp [hpre 0 (by omega)]), if_pos (by simpa using hk)]
    rfl
  | 2, hpre, hk, hkr =>
    unfold app_alloc_pg_io_trace
    rw [if_neg (by simp [hpre 0 (by omega)]), if_neg (by simp [hpre 1 (by omega)]),
      if_pos (by simpa using hk)]
    rfl
  | 3, hpre, hk, hkr =>
    unfold app_alloc_pg_io_trace
    rw [if_neg (by simp [hpre 0 (by omega)]), if_neg (by simp [hpre 1 (by omega)]),
      if_neg (by simp [hpre 2 (by omega)]), if_pos (by simpa using hk)]
    rfl
  | 4, hpre, hk, hkr =>
    unfold app_alloc_pg_io_trace
    rw [if_neg (by simp [hpre 0 (by omega)]), if_neg (by simp [hpre 1 (by omega)]),
      if_neg (by simp [hpre 2 (by omega)]), if_neg (by simp [hpre 3 (by omega)]),
      if_pos (by simpa using hk)]
    rfl
  | (k5 + 5), hpre, hk, hkr =>
    unfold app_alloc_pg_io_trace
    rw [if_neg (by simp [hpre 0 (by omega)]), if_neg (by simp [hpre 1 (by omega)]),
      if_neg (by simp [hpre 2 (by omega)]), if_neg (by simp [hpre 3 (by omega)]),
      if_neg (by simp [hpre 4 (by omega)])]
    rw [allocPlanesLoop_fail ok k5 n_pl 0
        [AllocEv.acq 0, AllocEv.acq 1, AllocEv.acq 2, AllocEv.acq 3, AllocEv.acq 4]
        (by omega)
        (fun u hu => by
          have h2 := hpre (5 + u) (by omega)
          simpa using h2)
        (by rw [show (5 : Nat) + 0 + k5 = k5 + 5 by omega]; exact hk)]
    rw [Nat.zero_add]
    rw [show k5 + 5 = 5 + k5 by omega]
    rw [← alloc_trace_assemble k5]

/-- C5 witness: two planes, first failure at allocation call 6 (the second
per-plane sector array): the five fixed allocations and the first plane
array are acquired and then released in reverse order, and the function
reports out-of-memory. -/
theorem c5_alloc_unwind_w :
    (∀ j, j < 6 → okC5 j = true) ∧ okC5 6 = false ∧ 6 < 5 + 2 ∧
    app_alloc_pg_io_trace 2 okC5 =
      (none, (List.range 6).map AllocEv.acq ++
        ((List.range 6).reverse).map AllocEv.rel) :=
  ⟨by decide, by decide, by decide,
   c5_alloc_unwind 2 okC5 6 (by decide) (by decide) (by decide)⟩

/-- Helper: the sector loop never changes pl_vec. -/
theorem prepInner_pl_vec (g : Geometry) (d : AppIoData) (pl : Nat) :
    ∀ (m : Nat) (st : PrepSt),
      ((List.range m).foldl (prepInnerStep g d pl) st).pl_vec = st.pl_vec := by
  intro m
  induction m with
  | zero => intro st; rfl
  | succ n ih =>
    intro st
    rw [List.range_succ, List.foldl_append]
    simp only [List.foldl_cons, List.foldl_nil]
    exact ih st

/-- Helper: after the sector loop has passed sector sec, the out-of-band
offset of (pl, sec) is the plane base plus pg_sz plus sec_oob_sz * sec. -/
theorem prepInner_oob_hit (g : Geometry) (d : AppIoData) (pl : Nat) :
    ∀ (m : Nat) (st : PrepSt) (sec : Nat), sec < m →
      ((List.range m).foldl (prepInnerStep g d pl) st).oob_vec
          (g.sec_per_pg * pl + sec) =
        st.pl_vec pl + d.pg_sz + g.sec_oob_sz * sec := by
  intro m
  induction m with
  | zero => intro st sec h; omega
  | succ n ih =>
    intro st sec hsec
    rw [List.range_succ, List.foldl_append]
    simp only [List.foldl_cons, List.foldl_nil, prepInnerStep]
    by_cases h : sec = n
    · rw [if_pos (by rw [h])]
      rw [prepInner_pl_vec, h]
    · rw [if_neg (by omega)]
      exact ih st sec (by omega)

/-- Helper: the sector loop leaves out-of-band offsets outside its own
index window untouched. -/
theorem prepInner_oob_miss (g : Geometry) (d : AppIoData) (pl : Nat) :
    ∀ (m : Nat) (st : PrepSt) (i : Nat),
      (∀ sec, sec < m → i ≠ g.sec_per_pg * pl + sec) →
      ((List.range m).foldl (prepInnerStep g d pl) st).oob_vec i = st.oob_vec i := by
  intro m
  induction m with
  | zero => intro st i _; rfl
  | succ n ih =>
    intro st i hmiss
    rw [List.range_succ, List.foldl_append]
    simp only [List.foldl_cons, List.foldl_nil, prepInnerStep]
    rw [if_neg (hmiss n (Nat.lt_succ_self n))]
    exact ih st i (fun sec hs => hmiss sec (by omega))

/-- Helper: after the sector loop has passed sector sec, the sector offset
of (pl, sec) is the plane base plus sec_size * sec. -/
theorem prepInner_sec_hit (g : Geometry) (d : AppIoData) (pl : Nat) :
    ∀ (m : Nat) (st : PrepSt) (sec : Nat), sec < m →
      ((List.range m).foldl (prepInnerStep g d pl) st).sec_vec pl sec =
        st.pl_vec pl + g.sec_size * sec := by
  intro m
  induction m with
  | zero => intro st sec h; omega
  | succ n ih =>
    intro st sec hsec
    rw [List.range_succ, List.foldl_append]
    simp only [List.foldl_cons, List.foldl_nil, prepInnerStep]
    by_cases h : sec = n
    · rw [if_pos (by simp [h])]
      rw [prepInner_pl_vec, h]
    · rw [if_neg (by simp [h])]
      exact ih st sec (by omega)

/-- Helper: the sector loop leaves sector offsets of other planes and
sectors it has not visited untouched. -/
theorem prepInner_sec_miss (g : Geometry) (d : AppIoData) (pl : Nat) :
    ∀ (m : Nat) (st : PrepSt) (p s : Nat), p ≠ pl ∨ m ≤ s →
      ((List.range m).foldl (prepInnerStep g d pl) st).sec_vec p s =
        st.sec_vec p s := by
  intro m
  induction m with
  | zero => intro st p s _; rfl
  | succ n ih =>
    intro st p s hps
    rw [List.range_succ, List.foldl_append]
    simp only [List.foldl_cons, List.foldl_nil, prepInnerStep]
    rw [if_neg (by
      intro hcon
      rcases hps with h | h
      · exact h hcon.1
      · exact absurd hcon.2 (by omega))]
    exact ih st p s (by omega)

/-- Helper: after the plane loop has passed plane p, its base offset is
p * (buf_sz / n_pl); planes not yet visited keep their initial value. -/
theorem prepOuter_pl_vec (g : Geometry) (d : AppIoData) :
    ∀ (m : Nat) (st0 : PrepSt) (p : Nat),
      ((List.range m).foldl (prepOuterStep g d) st0).pl_vec p =
        if p < m then p * (d.buf_sz / d.n_pl) else st0.pl_vec p := by
  intro m
  induction m with
  | zero => intro st0 p; simp
  | succ n ih =>
    intro st0 p
    rw [List.range_succ, List.foldl_append]
    simp only [List.foldl_cons, List.foldl_nil, prepOuterStep]
    rw [prepInner_pl_vec]
    dsimp only
    by_cases h : p = n
    · rw [if_pos h, if_pos (by omega), h]
    · rw [if_neg h, ih st0 p]
      by_cases h2 : p < n
      · rw [if_pos h2, if_pos (by omega)]
      · rw [if_neg h2, if_neg (by omega)]

/-- Helper: after the plane loop has passed plane p, the out-of-band
offset of (p, sec) is the plane base plus pg_sz plus sec_oob_sz * sec. -/
theorem prepOuter_oob (g : Geometry) (d : AppIoData) :
    ∀ (m : Nat) (st0 : PrepSt) (p sec : Nat), p < m → sec < g.sec_per_pg →
      ((List.range m).foldl (prepOuterStep g d) st0).oob_vec
          (g.sec_per_pg * p + sec) =
        p * (d.buf_sz / d.n_pl) + d.pg_sz + g.sec_oob_sz * sec := by
  intro m
  induction m with
  | zero => intro st0 p sec hp _; omega
  | succ n ih =>
    intro st0 p sec hp hsec
    rw [List.range_succ, List.foldl_append]
    simp only [List.foldl_cons, List.foldl_nil, prepOuterStep]
    by_cases h : p = n
    · subst h
      rw [prepInner_oob_hit g d p g.sec_per_pg _ sec hsec]
      dsimp only
      rw [if_pos rfl]
    · have hlt : p < n := by omega
      rw [prepInner_oob_miss g d n g.sec_per_pg _ (g.sec_per_pg * p + sec)
          (fun sec2 hs2 => by
            have hmul : g.sec_per_pg * (p + 1) ≤ g.sec_per_pg * n :=
              Nat.mul_le_mul_left g.sec_per_pg (by omega)
            have hmul2 : g.sec_per_pg * p + sec < g.sec_per_pg * (p + 1) := by
              rw [Nat.mul_succ]; omega
            omega)]
      dsimp only
      exact ih st0 p sec hlt hsec

/-- Helper: after the plane loop has passed plane p, the sector offset of
(p, sec) for a real sector sec is the plane base plus sec_size * sec. -/
theorem prepOuter_sec (g : Geometry) (d : AppIoData) :
    ∀ (m : Nat) (st0 : PrepSt) (p sec : Nat), p < m → sec < g.sec_per_pg →
      ((List.range m).foldl (prepOuterStep g d) st0).sec_vec p sec =
        p * (d.buf_sz / d.n_pl) + g.sec_size * sec := by
  intro m
  induction m with
  | zero => intro st0 p sec hp _; omega
  | succ n ih =>
    intro st0 p sec hp hsec
    rw [List.range_succ, List.foldl_append]
    simp only [List.foldl_cons, List.foldl_nil, prepOuterStep]
    rw [if_neg (by intro hcon; exact absurd hcon.2 (by omega))]
    by_cases h : p = n
    · subst h
      rw [prepInner_sec_hit g d p g.sec_per_pg _ sec hsec]
      dsimp only
      rw [if_pos rfl]
    · rw [prepInner_sec_miss g d n g.sec_per_pg _ p sec (Or.inl h)]
      exact ih st0 p sec (by omega) hsec

/-- Helper: after the plane loop has passed plane p, the sentinel sector
offset of plane p equals the plane base plus pg_sz (the first out-of-band
offset of that plane). -/
theorem prepOuter_sentinel (g : Geometry) (d : AppIoData) :
    ∀ (m : Nat) (st0 : PrepSt) (p : Nat), p < m → 0 < g.sec_per_pg →
      ((List.range m).foldl (prepOuterStep g d) st0).sec_vec p g.sec_per_pg =
        p * (d.buf_sz / d.n_pl) + d.pg_sz := by
  intro m
  induction m with
  | zero => intro st0 p hp _; omega
  | succ n ih =>
    intro st0 p hp hspp
    rw [List.range_succ, List.foldl_append]
    simp only [List.foldl_cons, List.foldl_nil, prepOuterStep]
    by_cases h : p = n
    · subst h
      rw [if_pos (show p = p ∧ True from ⟨rfl, trivial⟩)]
      rw [show g.sec_per_pg * p = g.sec_per_pg * p + 0 by omega]
      rw [prepInner_oob_hit g d p g.sec_per_pg _ 0 hspp]
      dsimp only
      rw [if_pos rfl]
      omega
    · rw [if_neg (by intro hcon; exact h hcon.1)]
      rw [prepInner_sec_miss g d n g.sec_per_pg _ p g.sec_per_pg (Or.inl h)]
      exact ih st0 p (by omega) hspp

/-- C6: app_alloc_pg_io builds a zero-initialised contiguous buffer of
exactly (pg_size + sec_oob_sz * sec_per_pg) * n_of_planes bytes, and
app_pg_io_prepare places plane pl at byte offset
pl * (pg_size + plane_oob_size), sector sec of plane pl at the plane base
plus sec_size * sec, the out-of-band pointer of (pl, sec) at the plane
base plus pg_size plus sec_oob_sz * sec, and the sentinel sector pointer
(index sec_per_pg) of each plane equal to that plane's first out-of-band
pointer. -/
theorem c6_buffer_layout (g : Geometry) (st0 : PrepSt) (pl : Nat)
    (hpl : pl < g.n_of_planes) :
    (app_alloc_io_data g).buf_sz =
      (g.pg_size + g.sec_oob_sz * g.sec_per_pg) * g.n_of_planes ∧
    (∀ i, (app_alloc_io_data g).buf i = 0) ∧
    (app_pg_io_prepare g (app_alloc_io_data g) st0).pl_vec pl =
      pl * (g.pg_size + g.sec_oob_sz * g.sec_per_pg) ∧
    (∀ sec, sec < g.sec_per_pg →
      (app_pg_io_prepare g (app_alloc_io_data g) st0).sec_vec pl sec =
        pl * (g.pg_size + g.sec_oob_sz * g.sec_per_pg) + g.sec_size * sec) ∧
    (∀ sec, sec < g.sec_per_pg →
      (app_pg_io_prepare g (app_alloc_io_data g) st0).oob_vec
          (g.sec_per_pg * pl + sec) =
        pl * (g.pg_size + g.sec_oob_sz * g.sec_per_pg) + g.pg_size +
          g.sec_oob_sz * sec) ∧
    (0 < g.sec_per_pg →
      (app_pg_io_prepare g (app_alloc_io_data g) st0).sec_vec pl g.sec_per_pg =
        (app_pg_io_prepare g (app_alloc_io_data g) st0).oob_vec
          (g.sec_per_pg * pl)) := by
  have hnp : (app_alloc_io_data g).n_pl = g.n_of_planes := rfl
  have hdiv : (app_alloc_io_data g).buf_sz / (app_alloc_io_data g).n_pl =
      g.pg_size + g.sec_oob_sz * g.sec_per_pg := by
    show (g.pg_size + g.sec_oob_sz * g.sec_per_pg) * g.n_of_planes /
        g.n_of_planes = _
    exact Nat.mul_div_cancel _ (by omega)
  have hpl2 : pl < (app_alloc_io_data g).n_pl := by rw [hnp]; exact hpl
  refine ⟨rfl, fun i => rfl, ?_, ?_, ?_, ?_⟩
  · unfold app_pg_io_prepare
    rw [prepOuter_pl_vec, if_pos hpl2, hdiv]
  · intro sec hsec
    unfold app_pg_io_prepare
    rw [prepOuter_sec g (app_alloc_io_data g) _ st0 pl sec hpl2 hsec, hdiv]
  · intro sec hsec
    unfold app_pg_io_prepare
    rw [prepOuter_oob g (app_alloc_io_data g) _ st0 pl sec hpl2 hsec, hdiv]
    rfl
  · intro hspp
    unfold app_pg_io_prepare
    rw [prepOuter_sentinel g (app_alloc_io_data g) _ st0 pl hpl2 hspp]
    rw [show g.sec_per_pg * pl = g.sec_per_pg * pl + 0 by omega]
    rw [prepOuter_oob g (app_alloc_io_data g) _ st0 pl 0 hpl2 hspp, hdiv]
    omega

/-- C6 witness: 2-plane witness geometry, plane 1: the buffer size and the
sector-1 offset of plane 1 are as computed by the layout formulas. -/
theorem c6_buffer_layout_w :
    (1 < gW.n_of_planes) ∧ (1 < gW.sec_per_pg) ∧
    (app_alloc_io_data gW).buf_sz =
      (gW.pg_size + gW.sec_oob_sz * gW.sec_per_pg) * gW.n_of_planes ∧
    (app_pg_io_prepare gW (app_alloc_io_data gW) prepSt0).sec_vec 1 1 =
      1 * (gW.pg_size + gW.sec_oob_sz * gW.sec_per_pg) + gW.sec_size * 1 :=
  ⟨by decide, by decide,
   (c6_buffer_layout gW prepSt0 1 (by decide)).1,
   (c6_buffer_layout gW prepSt0 1 (by decide)).2.2.2.1 1 (by decide)⟩

/-- Helper: dividing before multiplying never exceeds multiplying before
dividing. -/
theorem div_mul_le_mul_div (a c n : Nat) : a / n * c ≤ a * c / n := by
  rcases Nat.eq_zero_or_pos n with h | h
  · subst h; simp
  · rw [Nat.le_div_iff_mul_le h]
    calc a / n * c * n = a / n * n * c := by ring
    _ ≤ a * c := Nat.mul_le_mul_right c (Nat.div_mul_le_self a n)

/-- Helper: multiplication distributes over min on Nat. -/
theorem min_mul_right_nat (a b c : Nat) : min a b * c = min (a * c) (b * c) := by
  rcases Nat.le_total a b with h | h
  · rw [Nat.min_eq_left h, Nat.min_eq_left (Nat.mul_le_mul_right c h)]
  · rw [Nat.min_eq_right h, Nat.min_eq_right (Nat.mul_le_mul_right c h)]

/-- Helper: trf_sz of the plane copy is min(epp, ent_left) entries in
bytes. -/
theorem trf_eq_min (epp el esz : Nat) :
    (if epp ≤ el then epp * esz else el * esz) = min epp el * esz := by
  by_cases h : epp ≤ el
  · rw [if_pos h, Nat.min_eq_left h]
  · rw [if_neg h, Nat.min_eq_right (by omega)]

/-- Helper: the plane loop consumes epp entries of ent_left per remaining
plane, saturating at zero. -/
theorem planeLoop_el (n_pl ent_per_pg entry_sz : Nat) (dir : Dir) (i : Nat) :
    ∀ (rem pl : Nat) (s : SeqSt) (el : Nat),
      (planeLoop n_pl ent_per_pg entry_sz dir i rem pl s el).2 =
        el - rem * (ent_per_pg / n_pl) := by
  intro rem
  induction rem with
  | zero => intro pl s el; simp [planeLoop]
  | succ n ih =>
    intro pl s el
    simp only [planeLoop]
    by_cases h2 : (if ent_per_pg / n_pl ≤ el then el - ent_per_pg / n_pl else 0) = 0
    · rw [if_pos h2]
      show (if ent_per_pg / n_pl ≤ el then el - ent_per_pg / n_pl else 0) =
        el - (n + 1) * (ent_per_pg / n_pl)
      rw [h2]
      have hle : el ≤ ent_per_pg / n_pl := by
        by_cases h : ent_per_pg / n_pl ≤ el
        · rw [if_pos h] at h2; omega
        · omega
      have hmul : ent_per_pg / n_pl ≤ (n + 1) * (ent_per_pg / n_pl) :=
        Nat.le_mul_of_pos_left _ (Nat.succ_pos n)
      omega
    · rw [if_neg h2, ih]
      have hle : ent_per_pg / n_pl ≤ el := by
        by_cases h : ent_per_pg / n_pl ≤ el
        · exact h
        · rw [if_neg h] at h2; omega
      rw [if_pos hle]
      have hsm : (n + 1) * (ent_per_pg / n_pl) =
          n * (ent_per_pg / n_pl) + ent_per_pg / n_pl := by ring
      omega

/-- Helper: the to-NVM plane loop changes only the plane buffers. -/
theorem planeLoop_toNVM_frame (n_pl ent_per_pg entry_sz : Nat) (i : Nat) :
    ∀ (rem pl : Nat) (s : SeqSt) (el : Nat),
      (planeLoop n_pl ent_per_pg entry_sz Dir.toNVM i rem pl s el).1.user = s.user ∧
      (planeLoop n_pl ent_per_pg entry_sz Dir.toNVM i rem pl s el).1.flash = s.flash ∧
      (planeLoop n_pl ent_per_pg entry_sz Dir.toNVM i rem pl s el).1.cppa = s.cppa := by
  intro rem
  induction rem with
  | zero => intro pl s el; exact ⟨rfl, rfl, rfl⟩
  | succ n ih =>
    intro pl s el
    simp only [planeLoop]
    by_cases h2 : (if ent_per_pg / n_pl ≤ el then el - ent_per_pg / n_pl else 0) = 0
    · rw [if_pos h2]
      exact ⟨rfl, rfl, rfl⟩
    · rw [if_neg h2]
      exact ih (pl + 1) _ _

/-- Helper: the from-NVM plane loop changes only the flat table. -/
theorem planeLoop_fromNVM_frame (n_pl ent_per_pg entry_sz : Nat) (i : Nat) :
    ∀ (rem pl : Nat) (s : SeqSt) (el : Nat),
      (planeLoop n_pl ent_per_pg entry_sz Dir.fromNVM i rem pl s el).1.planes = s.planes ∧
      (planeLoop n_pl ent_per_pg entry_sz Dir.fromNVM i rem pl s el).1.flash = s.flash ∧
      (planeLoop n_pl ent_per_pg entry_sz Dir.fromNVM i rem pl s el).1.cppa = s.cppa := by
  intro rem
  induction rem with
  | zero => intro pl s el; exact ⟨rfl, rfl, rfl⟩
  | succ n ih =>
    intro pl s el
    simp only [planeLoop]
    by_cases h2 : (if ent_per_pg / n_pl ≤ el then el - ent_per_pg / n_pl else 0) = 0
    · rw [if_pos h2]
      exact ⟨rfl, rfl, rfl⟩
    · rw [if_neg h2]
      exact ih (pl + 1) _ _

/-- Helper: the to-NVM plane loop never touches plane buffers below its
starting plane. -/
theorem planeLoop_toNVM_planes_lo (n_pl ent_per_pg entry_sz : Nat) (i : Nat) :
    ∀ (rem pl : Nat) (s : SeqSt) (el : Nat) (p j : Nat), p < pl →
      (planeLoop n_pl ent_per_pg entry_sz Dir.toNVM i rem pl s el).1.planes p j =
        s.planes p j := by
  intro rem
  induction rem with
  | zero => intro pl s el p j _; rfl
  | succ n ih =>
    intro pl s el p j hp
    simp only [planeLoop]
    by_cases h2 : (if ent_per_pg / n_pl ≤ el then el - ent_per_pg / n_pl else 0) = 0
    · rw [if_pos h2]
      show (if p = pl ∧ _ then _ else s.planes p j) = s.planes p j
      rw [if_neg (by intro hcon; omega)]
    · rw [if_neg h2, ih (pl + 1) _ _ p j (by omega)]
      show (if p = pl ∧ _ then _ else s.planes p j) = s.planes p j
      rw [if_neg (by intro hcon; omega)]

/-- Helper: within the planes the to-NVM plane loop visits while ent_left
lasts, plane p's buffer bytes below the transfer size hold the flat-table
bytes starting at pg_ent_sz * i + p * (pg_ent_sz / n_pl). -/
theorem planeLoop_toNVM_planes_hit (n_pl ent_per_pg entry_sz : Nat) (i : Nat) :
    ∀ (rem pl : Nat) (s : SeqSt) (el : Nat) (p j : Nat),
      pl ≤ p → p < pl + rem →
      j < min (ent_per_pg / n_pl)
          (el - (p - pl) * (ent_per_pg / n_pl)) * entry_sz →
      (planeLoop n_pl ent_per_pg entry_sz Dir.toNVM i rem pl s el).1.planes p j =
        s.user (ent_per_pg * entry_sz * i +
          p * (ent_per_pg * entry_sz / n_pl) + j) := by
  intro rem
  induction rem with
  | zero => intro pl s el p j h1 h2 _; omega
  | succ n ih =>
    intro pl s el p j hp1 hp2 hj
    simp only [planeLoop]
    by_cases h2 : (if ent_per_pg / n_pl ≤ el then el - ent_per_pg / n_pl else 0) = 0
    · have hle : el ≤ ent_per_pg / n_pl := by
        by_cases h : ent_per_pg / n_pl ≤ el
        · rw [if_pos h] at h2; omega
        · omega
      rw [if_pos h2]
      by_cases hppl : p = pl
      · subst hppl
        rw [Nat.sub_self, Nat.zero_mul, Nat.sub_zero] at hj
        show (if p = p ∧ j < (if ent_per_pg / n_pl ≤ el then
            ent_per_pg / n_pl * entry_sz else el * entry_sz) then
            s.user (ent_per_pg * entry_sz * i +
              p * (ent_per_pg * entry_sz / n_pl) + j) else s.planes p j) = _
        rw [trf_eq_min]
        rw [if_pos ⟨rfl, hj⟩]
      · have hk : 1 ≤ p - pl := by omega
        have hmul : ent_per_pg / n_pl ≤ (p - pl) * (ent_per_pg / n_pl) :=
          Nat.le_mul_of_pos_left _ (by omega)
        have hz : el - (p - pl) * (ent_per_pg / n_pl) = 0 := by omega
        rw [hz, Nat.min_zero, Nat.zero_mul] at hj
        omega
    · have hle : ent_per_pg / n_pl ≤ el := by
        by_cases h : ent_per_pg / n_pl ≤ el
        · exact h
        · rw [if_neg h] at h2; omega
      rw [if_neg h2]
      by_cases hppl : p = pl
      · subst hppl
        rw [planeLoop_toNVM_planes_lo n_pl ent_per_pg entry_sz i n (p + 1) _ _ p j
          (Nat.lt_succ_self p)]
        rw [Nat.sub_self, Nat.zero_mul, Nat.sub_zero, Nat.min_eq_left hle] at hj
        show (if p = p ∧ j < (if ent_per_pg / n_pl ≤ el then
            ent_per_pg / n_pl * entry_sz else el * entry_sz) then
            s.user (ent_per_pg * entry_sz * i +
              p * (ent_per_pg * entry_sz / n_pl) + j) else s.planes p j) = _
        rw [if_pos ⟨rfl, by rw [if_pos hle]; exact hj⟩]
      · have hb : (p - pl) * (ent_per_pg / n_pl) =
            (p - (pl + 1)) * (ent_per_pg / n_pl) + ent_per_pg / n_pl := by
          have h1 : p - pl = (p - (pl + 1)) + 1 := by omega
          rw [h1, Nat.add_mul, Nat.one_mul]
        have hj2 : j < min (ent_per_pg / n_pl)
            ((if ent_per_pg / n_pl ≤ el then el - ent_per_pg / n_pl else 0) -
              (p - (pl + 1)) * (ent_per_pg / n_pl)) * entry_sz := by
          rw [if_pos hle]
          have hsub : el - (p - pl) * (ent_per_pg / n_pl) =
              el - ent_per_pg / n_pl - (p - (pl + 1)) * (ent_per_pg / n_pl) := by
            rw [hb, Nat.add_comm, ← Nat.sub_sub]
          rw [hsub] at hj
          exact hj
        rw [ih (pl + 1) _ _ p j (by omega) (by omega) hj2]

/-- Helper: the from-NVM plane loop never writes flat-table bytes below
the byte offset of its starting plane. -/
theorem planeLoop_fromNVM_user_frame (n_pl ent_per_pg entry_sz : Nat) (i : Nat) :
    ∀ (rem pl : Nat) (s : SeqSt) (el : Nat) (b : Nat),
      b < ent_per_pg * entry_sz * i + pl * (ent_per_pg * entry_sz / n_pl) →
      (planeLoop n_pl ent_per_pg entry_sz Dir.fromNVM i rem pl s el).1.user b =
        s.user b := by
  intro rem
  induction rem with
  | zero => intro pl s el b _; rfl
  | succ n ih =>
    intro pl s el b hb
    simp only [planeLoop]
    by_cases h2 : (if ent_per_pg / n_pl ≤ el then el - ent_per_pg / n_pl else 0) = 0
    · rw [if_pos h2]
      show (if ent_per_pg * entry_sz * i + pl * (ent_per_pg * entry_sz / n_pl) ≤ b ∧ _
          then _ else s.user b) = s.user b
      rw [if_neg (by intro hcon; exact absurd hcon.1 (Nat.not_le.mpr hb))]
    · rw [if_neg h2]
      have hstep : pl * (ent_per_pg * entry_sz / n_pl) ≤
          (pl + 1) * (ent_per_pg * entry_sz / n_pl) :=
        Nat.mul_le_mul_right _ (Nat.le_succ pl)
      rw [ih (pl + 1) _ _ b (lt_of_lt_of_le hb (Nat.add_le_add_left hstep _))]
      show (if ent_per_pg * entry_sz * i + pl * (ent_per_pg * entry_sz / n_pl) ≤ b ∧ _
          then _ else s.user b) = s.user b
      rw [if_neg (by intro hcon; exact absurd hcon.1 (Nat.not_le.mpr hb))]

/-- Helper: within the planes the from-NVM plane loop visits while
ent_left lasts, the flat-table bytes at offset
pg_ent_sz * i + p * (pg_ent_sz / n_pl) + j receive plane p's buffer byte
j. -/
theorem planeLoop_fromNVM_user_hit (n_pl ent_per_pg entry_sz : Nat) (i : Nat) :
    ∀ (rem pl : Nat) (s : SeqSt) (el : Nat) (p j : Nat),
      pl ≤ p → p < pl + rem →
      j < min (ent_per_pg / n_pl)
          (el - (p - pl) * (ent_per_pg / n_pl)) * entry_sz →
      (planeLoop n_pl ent_per_pg entry_sz Dir.fromNVM i rem pl s el).1.user
          (ent_per_pg * entry_sz * i + p * (ent_per_pg * entry_sz / n_pl) + j) =
        s.planes p j := by
  intro rem
  induction rem with
  | zero => intro pl s el p j h1 h2 _; omega
  | succ n ih =>
    intro pl s el p j hp1 hp2 hj
    have htrfle : min (ent_per_pg / n_pl) el * entry_sz ≤
        ent_per_pg * entry_sz / n_pl := by
      calc min (ent_per_pg / n_pl) el * entry_sz
          ≤ ent_per_pg / n_pl * entry_sz :=
            Nat.mul_le_mul_right entry_sz (Nat.min_le_left _ _)
        _ ≤ ent_per_pg * entry_sz / n_pl := div_mul_le_mul_div _ _ _
    simp only [planeLoop]
    by_cases h2 : (if ent_per_pg / n_pl ≤ el then el - ent_per_pg / n_pl else 0) = 0
    · have hle : el ≤ ent_per_pg / n_pl := by
        by_cases h : ent_per_pg / n_pl ≤ el
        · rw [if_pos h] at h2; omega
        · omega
      rw [if_pos h2]
      by_cases hppl : p = pl
      · subst hppl
        rw [Nat.sub_self, Nat.zero_mul, Nat.sub_zero] at hj
        show (if ent_per_pg * entry_sz * i + p * (ent_per_pg * entry_sz / n_pl) ≤
              ent_per_pg * entry_sz * i + p * (ent_per_pg * entry_sz / n_pl) + j ∧
              ent_per_pg * entry_sz * i + p * (ent_per_pg * entry_sz / n_pl) + j <
              ent_per_pg * entry_sz * i + p * (ent_per_pg * entry_sz / n_pl) +
                (if ent_per_pg / n_pl ≤ el then ent_per_pg / n_pl * entry_sz
                  else el * entry_sz)
            then s.planes p (ent_per_pg * entry_sz * i +
              p * (ent_per_pg * entry_sz / n_pl) + j -
              (ent_per_pg * entry_sz * i + p * (ent_per_pg * entry_sz / n_pl)))
            else s.user _) = s.planes p j
        rw [trf_eq_min]
        rw [if_pos ⟨by omega, by omega⟩, Nat.add_sub_cancel_left]
      · have hk : 1 ≤ p - pl := by omega
        have hmul : ent_per_pg / n_pl ≤ (p - pl) * (ent_per_pg / n_pl) :=
          Nat.le_mul_of_pos_left _ (by omega)
        have hz : el - (p - pl) * (ent_per_pg / n_pl) = 0 := by omega
        rw [hz, Nat.min_zero, Nat.zero_mul] at hj
        omega
    · have hle : ent_per_pg / n_pl ≤ el := by
        by_cases h : ent_per_pg / n_pl ≤ el
        · exact h
        · rw [if_neg h] at h2; omega
      rw [if_neg h2]
      by_cases hppl : p = pl
      · subst hppl
        rw [Nat.sub_self, Nat.zero_mul, Nat.sub_zero, Nat.min_eq_left hle] at hj
        have hpos : ent_per_pg * entry_sz * i + p * (ent_per_pg * entry_sz / n_pl) + j <
            ent_per_pg * entry_sz * i + (p + 1) * (ent_per_pg * entry_sz / n_pl) := by
          have hq : (p + 1) * (ent_per_pg * entry_sz / n_pl) =
              p * (ent_per_pg * entry_sz / n_pl) + ent_per_pg * entry_sz / n_pl := by
            ring
          have hj3 : j < ent_per_pg * entry_sz / n_pl := by
            have := div_mul_le_mul_div ent_per_pg entry_sz n_pl
            have hj4 : j < ent_per_pg / n_pl * entry_sz := hj
            omega
          omega
        rw [planeLoop_fromNVM_user_frame n_pl ent_per_pg entry_sz i n (p + 1) _ _ _ hpos]
        show (if ent_per_pg * entry_sz * i + p * (ent_per_pg * entry_sz / n_pl) ≤
              ent_per_pg * entry_sz * i + p * (ent_per_pg * entry_sz / n_pl) + j ∧
              ent_per_pg * entry_sz * i + p * (ent_per_pg * entry_sz / n_pl) + j <
              ent_per_pg * entry_sz * i + p * (ent_per_pg * entry_sz / n_pl) +
                (if ent_per_pg / n_pl ≤ el then ent_per_pg / n_pl * entry_sz
                  else el * entry_sz)
            then s.planes p (ent_per_pg * entry_sz * i +
              p * (ent_per_pg * entry_sz / n_pl) + j -
              (ent_per_pg * entry_sz * i + p * (ent_per_pg * entry_sz / n_pl)))
            else s.user _) = s.planes p j
        rw [if_pos ⟨by omega, by rw [if_pos hle]; omega⟩, Nat.add_sub_cancel_left]
      · have hb : (p - pl) * (ent_per_pg / n_pl) =
            (p - (pl + 1)) * (ent_per_pg / n_pl) + ent_per_pg / n_pl := by
          have h1 : p - pl = (p - (pl + 1)) + 1 := by omega
          rw [h1, Nat.add_mul, Nat.one_mul]
        have hj2 : j < min (ent_per_pg / n_pl)
            ((if ent_per_pg / n_pl ≤ el then el - ent_per_pg / n_pl else 0) -
              (p - (pl + 1)) * (ent_per_pg / n_pl)) * entry_sz := by
          rw [if_pos hle]
          have hsub : el - (p - pl) * (ent_per_pg / n_pl) =
              el - ent_per_pg / n_pl - (p - (pl + 1)) * (ent_per_pg / n_pl) := by
            rw [hb, Nat.add_comm, ← Nat.sub_sub]
          rw [hsub] at hj
          exact hj
        rw [ih (pl + 1) _ _ p j (by omega) (by omega) hj2]

/-- Helper: the page loop never touches the caller's ppa struct. -/
theorem pageLoop_cppa (n_pl ent_per_pg entry_sz : Nat) (dir : Dir)
    (rdFl wrFl : Nat → Nat) (start_pg : Nat) :
    ∀ (rem i : Nat) (s : SeqSt) (el : Nat),
      (pageLoop n_pl ent_per_pg entry_sz dir rdFl wrFl start_pg rem i s el).2.1.cppa =
        s.cppa := by
  intro rem
  induction rem with
  | zero => intro i s el; rfl
  | succ n ih =>
    intro i s el
    cases dir with
    | fromNVM =>
      simp only [pageLoop]
      by_cases hr : rdFl (start_pg + i) < n_pl
      · rw [if_pos hr]
      · rw [if_neg hr, ih]
        exact (planeLoop_fromNVM_frame n_pl ent_per_pg entry_sz i n_pl 0 _ el).2.2
    | toNVM =>
      simp only [pageLoop]
      by_cases hw : wrFl (start_pg + i) < n_pl
      · rw [if_pos hw]
        exact (planeLoop_toNVM_frame n_pl ent_per_pg entry_sz i n_pl 0 s el).2.2
      · rw [if_neg hw, ih]
        exact (planeLoop_toNVM_frame n_pl ent_per_pg entry_sz i n_pl 0 s el).2.2

/-- Helper: the to-NVM page loop never changes the flat table. -/
theorem pageLoop_toNVM_user (n_pl ent_per_pg entry_sz : Nat)
    (rdFl wrFl : Nat → Nat) (start_pg : Nat) :
    ∀ (rem i : Nat) (s : SeqSt) (el : Nat) (b : Nat),
      (pageLoop n_pl ent_per_pg entry_sz Dir.toNVM rdFl wrFl start_pg
        rem i s el).2.1.user b = s.user b := by
  intro rem
  induction rem with
  | zero => intro i s el b; rfl
  | succ n ih =>
    intro i s el b
    simp only [pageLoop]
    by_cases hw : wrFl (start_pg + i) < n_pl
    · rw [if_pos hw]
      exact congrFun (planeLoop_toNVM_frame n_pl ent_per_pg entry_sz i n_pl 0 s el).1 b
    · rw [if_neg hw, ih]
      exact congrFun (planeLoop_toNVM_frame n_pl ent_per_pg entry_sz i n_pl 0 s el).1 b

/-- Helper: the to-NVM page loop never writes flash pages below its
current page. -/
theorem pageLoop_toNVM_flash_lo (n_pl ent_per_pg entry_sz : Nat)
    (rdFl wrFl : Nat → Nat) (start_pg : Nat) :
    ∀ (rem i : Nat) (s : SeqSt) (el : Nat) (q p j : Nat), q < start_pg + i →
      (pageLoop n_pl ent_per_pg entry_sz Dir.toNVM rdFl wrFl start_pg
        rem i s el).2.1.flash q p j = s.flash q p j := by
  intro rem
  induction rem with
  | zero => intro i s el q p j _; rfl
  | succ n ih =>
    intro i s el q p j hq
    simp only [pageLoop]
    by_cases hw : wrFl (start_pg + i) < n_pl
    · rw [if_pos hw]
      show (if q = start_pg + i ∧ _ then _
          else (planeLoop n_pl ent_per_pg entry_sz Dir.toNVM i n_pl 0 s el).1.flash q p j) =
        s.flash q p j
      rw [if_neg (by intro hcon; omega)]
      exact congrFun (congrFun (congrFun
        (planeLoop_toNVM_frame n_pl ent_per_pg entry_sz i n_pl 0 s el).2.1 q) p) j
    · rw [if_neg hw, ih _ _ _ _ _ _ (by omega)]
      show (if q = start_pg + i ∧ _ then _
          else (planeLoop n_pl ent_per_pg entry_sz Dir.toNVM i n_pl 0 s el).1.flash q p j) =
        s.flash q p j
      rw [if_neg (by intro hcon; omega)]
      exact congrFun (congrFun (congrFun
        (planeLoop_toNVM_frame n_pl ent_per_pg entry_sz i n_pl 0 s el).2.1 q) p) j

/-- Helper: the from-NVM page loop never changes the flash contents. -/
theorem pageLoop_fromNVM_flash (n_pl ent_per_pg entry_sz : Nat)
    (rdFl wrFl : Nat → Nat) (start_pg : Nat) :
    ∀ (rem i : Nat) (s : SeqSt) (el : Nat) (q p j : Nat),
      (pageLoop n_pl ent_per_pg entry_sz Dir.fromNVM rdFl wrFl start_pg
        rem i s el).2.1.flash q p j = s.flash q p j := by
  intro rem
  induction rem with
  | zero => intro i s el q p j; rfl
  | succ n ih =>
    intro i s el q p j
    simp only [pageLoop]
    by_cases hr : rdFl (start_pg + i) < n_pl
    · rw [if_pos hr]
    · rw [if_neg hr, ih]
      exact congrFun (congrFun (congrFun
        (planeLoop_fromNVM_frame n_pl ent_per_pg entry_sz i n_pl 0 _ el).2.1 q) p) j

/-- Helper: the from-NVM page loop never writes flat-table bytes below the
byte offset of its current page. -/
theorem pageLoop_fromNVM_user_lo (n_pl ent_per_pg entry_sz : Nat)
    (rdFl wrFl : Nat → Nat) (start_pg : Nat) :
    ∀ (rem i : Nat) (s : SeqSt) (el : Nat) (b : Nat),
      b < ent_per_pg * entry_sz * i →
      (pageLoop n_pl ent_per_pg entry_sz Dir.fromNVM rdFl wrFl start_pg
        rem i s el).2.1.user b = s.user b := by
  intro rem
  induction rem with
  | zero => intro i s el b _; rfl
  | succ n ih =>
    intro i s el b hb
    simp only [pageLoop]
    by_cases hr : rdFl (start_pg + i) < n_pl
    · rw [if_pos hr]
    · rw [if_neg hr]
      have hbb : b < ent_per_pg * entry_sz * (i + 1) := by
        have hq : ent_per_pg * entry_sz * (i + 1) =
            ent_per_pg * entry_sz * i + ent_per_pg * entry_sz := by ring
        omega
      rw [ih (i + 1) _ _ b hbb]
      rw [planeLoop_fromNVM_user_frame n_pl ent_per_pg entry_sz i n_pl 0 _ _ b
        (by omega)]

/-- Helper: when every page write succeeds, the to-NVM page loop returns
0. -/
theorem pageLoop_toNVM_status (n_pl ent_per_pg entry_sz : Nat)
    (rdFl wrFl : Nat → Nat) (start_pg : Nat) :
    ∀ (rem i : Nat) (s : SeqSt) (el : Nat),
      (∀ t, t < rem → n_pl ≤ wrFl (start_pg + i + t)) →
      (pageLoop n_pl ent_per_pg entry_sz Dir.toNVM rdFl wrFl start_pg
        rem i s el).1 = 0 := by
  intro rem
  induction rem with
  | zero => intro i s el _; rfl
  | succ n ih =>
    intro i s el hw
    have hw0 : n_pl ≤ wrFl (start_pg + i) := by simpa using hw 0 (Nat.succ_pos n)
    simp only [pageLoop]
    rw [if_neg (by omega)]
    exact ih (i + 1) _ _ (fun t ht => by
      have h3 := hw (t + 1) (by omega)
      rw [show start_pg + i + (t + 1) = start_pg + (i + 1) + t by omega] at h3
      exact h3)

/-- Helper: when every page read succeeds, the from-NVM page loop returns
0. -/
theorem pageLoop_fromNVM_status (n_pl ent_per_pg entry_sz : Nat)
    (rdFl wrFl : Nat → Nat) (start_pg : Nat) :
    ∀ (rem i : Nat) (s : SeqSt) (el : Nat),
      (∀ t, t < rem → n_pl ≤ rdFl (start_pg + i + t)) →
      (pageLoop n_pl ent_per_pg entry_sz Dir.fromNVM rdFl wrFl start_pg
        rem i s el).1 = 0 := by
  intro rem
  induction rem with
  | zero => intro i s el _; rfl
  | succ n ih =>
    intro i s el hr
    have hr0 : n_pl ≤ rdFl (start_pg + i) := by simpa using hr 0 (Nat.succ_pos n)
    simp only [pageLoop]
    rw [if_neg (by omega)]
    exact ih (i + 1) _ _ (fun t ht => by
      have h3 := hr (t + 1) (by omega)
      rw [show start_pg + i + (t + 1) = start_pg + (i + 1) + t by omega] at h3
      exact h3)

/-- Helper: when every page write succeeds, the to-NVM page loop leaves in
flash page start_pg + i + t, plane p, byte j (below that step's transfer
size) the flat-table byte at offset
pg_ent_sz * (i + t) + p * (pg_ent_sz / n_pl) + j. -/
theorem pageLoop_toNVM_flash_hit (n_pl ent_per_pg entry_sz : Nat)
    (rdFl wrFl : Nat → Nat) (start_pg : Nat) :
    ∀ (rem i : Nat) (s : SeqSt) (el : Nat) (t p j : Nat),
      (∀ t2, t2 < rem → n_pl ≤ wrFl (start_pg + i + t2)) →
      t < rem → p < n_pl →
      j < min (ent_per_pg / n_pl)
          (el - (t * n_pl + p) * (ent_per_pg / n_pl)) * entry_sz →
      (pageLoop n_pl ent_per_pg entry_sz Dir.toNVM rdFl wrFl start_pg
          rem i s el).2.1.flash (start_pg + i + t) p j =
        s.user (ent_per_pg * entry_sz * (i + t) +
          p * (ent_per_pg * entry_sz / n_pl) + j) := by
  intro rem
  induction rem with
  | zero => intro i s el t p j _ ht _ _; omega
  | succ n ih =>
    intro i s el t p j hw ht hp hj
    have hw0 : n_pl ≤ wrFl (start_pg + i) := by simpa using hw 0 (Nat.succ_pos n)
    have hw2 : ∀ t2, t2 < n → n_pl ≤ wrFl (start_pg + (i + 1) + t2) := by
      intro t2 ht2
      have h3 := hw (t2 + 1) (by omega)
      rw [show start_pg + i + (t2 + 1) = start_pg + (i + 1) + t2 by omega] at h3
      exact h3
    have hmin : min (wrFl (start_pg + i)) n_pl = n_pl := Nat.min_eq_right hw0
    simp only [pageLoop]
    rw [if_neg (by omega)]
    cases t with
    | zero =>
      refine Eq.trans (pageLoop_toNVM_flash_lo n_pl ent_per_pg entry_sz rdFl wrFl
        start_pg n (i + 1) _ _ _ _ _ (by omega)) ?_
      show (if start_pg + i + 0 = start_pg + i ∧ p < (min (wrFl (start_pg + i)) n_pl)
          then (planeLoop n_pl ent_per_pg entry_sz Dir.toNVM i n_pl 0 s el).1.planes p j
          else (planeLoop n_pl ent_per_pg entry_sz Dir.toNVM i n_pl 0 s el).1.flash
            (start_pg + i + 0) p j) = _
      rw [if_pos ⟨rfl, by rw [hmin]; exact hp⟩]
      rw [show (0 * n_pl + p) * (ent_per_pg / n_pl) = (p - 0) * (ent_per_pg / n_pl)
        from by rw [Nat.sub_zero]; ring] at hj
      exact planeLoop_toNVM_planes_hit n_pl ent_per_pg entry_sz i n_pl 0 s el p j
        (Nat.zero_le p) (by omega) hj
    | succ t2 =>
      have hel2 : (planeLoop n_pl ent_per_pg entry_sz Dir.toNVM i n_pl 0 s el).2 =
          el - n_pl * (ent_per_pg / n_pl) :=
        planeLoop_el n_pl ent_per_pg entry_sz Dir.toNVM i n_pl 0 s el
      have heq : el - n_pl * (ent_per_pg / n_pl) -
          (t2 * n_pl + p) * (ent_per_pg / n_pl) =
          el - ((t2 + 1) * n_pl + p) * (ent_per_pg / n_pl) := by
        rw [Nat.sub_sub, show n_pl * (ent_per_pg / n_pl) +
          (t2 * n_pl + p) * (ent_per_pg / n_pl) =
          ((t2 + 1) * n_pl + p) * (ent_per_pg / n_pl) from by ring]
      have hj2 : j < min (ent_per_pg / n_pl)
          ((planeLoop n_pl ent_per_pg entry_sz Dir.toNVM i n_pl 0 s el).2 -
            (t2 * n_pl + p) * (ent_per_pg / n_pl)) * entry_sz := by
        rw [hel2, heq]
        exact hj
      rw [show start_pg + i + (t2 + 1) = start_pg + (i + 1) + t2 by omega]
      rw [ih (i + 1) _ _ t2 p j hw2 (by omega) hp hj2]
      rw [show i + 1 + t2 = i + (t2 + 1) by omega]
      exact congrFun
        (planeLoop_toNVM_frame n_pl ent_per_pg entry_sz i n_pl 0 s el).1 _

/-- Helper: when every page read succeeds, the from-NVM page loop copies
flash page start_pg + i + t, plane p, byte j (below that step's transfer
size) to the flat-table byte at offset
pg_ent_sz * (i + t) + p * (pg_ent_sz / n_pl) + j. -/
theorem pageLoop_fromNVM_user_hit (n_pl ent_per_pg entry_sz : Nat)
    (rdFl wrFl : Nat → Nat) (start_pg : Nat) :
    ∀ (rem i : Nat) (s : SeqSt) (el : Nat) (t p j : Nat),
      (∀ t2, t2 < rem → n_pl ≤ rdFl (start_pg + i + t2)) →
      t < rem → p < n_pl →
      j < min (ent_per_pg / n_pl)
          (el - (t * n_pl + p) * (ent_per_pg / n_pl)) * entry_sz →
      (pageLoop n_pl ent_per_pg entry_sz Dir.fromNVM rdFl wrFl start_pg
          rem i s el).2.1.user (ent_per_pg * entry_sz * (i + t) +
            p * (ent_per_pg * entry_sz / n_pl) + j) =
        s.flash (start_pg + i + t) p j := by
  intro rem
  induction rem with
  | zero => intro i s el t p j _ ht _ _; omega
  | succ n ih =>
    intro i s el t p j hr ht hp hj
    have hr0 : n_pl ≤ rdFl (start_pg + i) := by simpa using hr 0 (Nat.succ_pos n)
    have hr2 : ∀ t2, t2 < n → n_pl ≤ rdFl (start_pg + (i + 1) + t2) := by
      intro t2 ht2
      have h3 := hr (t2 + 1) (by omega)
      rw [show start_pg + i + (t2 + 1) = start_pg + (i + 1) + t2 by omega] at h3
      exact h3
    have hmin : min (rdFl (start_pg + i)) n_pl = n_pl := Nat.min_eq_right hr0
    simp only [pageLoop]
    rw [if_neg (by omega)]
    cases t with
    | zero =>
      have hjb : j < ent_per_pg * entry_sz / n_pl := by
        have h4 := div_mul_le_mul_div ent_per_pg entry_sz n_pl
        have h5 : min (ent_per_pg / n_pl)
            (el - (0 * n_pl + p) * (ent_per_pg / n_pl)) * entry_sz ≤
            ent_per_pg / n_pl * entry_sz :=
          Nat.mul_le_mul_right entry_sz (Nat.min_le_left _ _)
        omega
      have hpos : ent_per_pg * entry_sz * (i + 0) +
          p * (ent_per_pg * entry_sz / n_pl) + j <
          ent_per_pg * entry_sz * (i + 1) := by
        have h6 : (p + 1) * (ent_per_pg * entry_sz / n_pl) =
            p * (ent_per_pg * entry_sz / n_pl) + ent_per_pg * entry_sz / n_pl := by
          ring
        have h7 : (p + 1) * (ent_per_pg * entry_sz / n_pl) ≤
            n_pl * (ent_per_pg * entry_sz / n_pl) :=
          Nat.mul_le_mul_right _ (by omega)
        have h8 : n_pl * (ent_per_pg * entry_sz / n_pl) ≤ ent_per_pg * entry_sz := by
          rw [Nat.mul_comm]
          exact Nat.div_mul_le_self _ _
        have h9 : ent_per_pg * entry_sz * (i + 1) =
            ent_per_pg * entry_sz * (i + 0) + ent_per_pg * entry_sz := by ring
        omega
      refine Eq.trans (pageLoop_fromNVM_user_lo n_pl ent_per_pg entry_sz rdFl wrFl
        start_pg n (i + 1) _ _ _ hpos) ?_
      rw [show (0 * n_pl + p) * (ent_per_pg / n_pl) = (p - 0) * (ent_per_pg / n_pl)
        from by rw [Nat.sub_zero]; ring] at hj
      refine Eq.trans (planeLoop_fromNVM_user_hit n_pl ent_per_pg entry_sz i n_pl 0
        _ el p j (Nat.zero_le p) (by omega) hj) ?_
      show (if p < (min (rdFl (start_pg + i)) n_pl) then s.flash (start_pg + i) p j
          else s.planes p j) = s.flash (start_pg + i + 0) p j
      rw [if_pos (by rw [hmin]; exact hp)]
      rfl
    | succ t2 =>
      have hel2 : (planeLoop n_pl ent_per_pg entry_sz Dir.fromNVM i n_pl 0
          { s with planes := fun p j =>
            if p < (min (rdFl (start_pg + i)) n_pl) then s.flash (start_pg + i) p j
            else s.planes p j } el).2 =
          el - n_pl * (ent_per_pg / n_pl) :=
        planeLoop_el n_pl ent_per_pg entry_sz Dir.fromNVM i n_pl 0 _ el
      have heq : el - n_pl * (ent_per_pg / n_pl) -
          (t2 * n_pl + p) * (ent_per_pg / n_pl) =
          el - ((t2 + 1) * n_pl + p) * (ent_per_pg / n_pl) := by
        rw [Nat.sub_sub, show n_pl * (ent_per_pg / n_pl) +
          (t2 * n_pl + p) * (ent_per_pg / n_pl) =
          ((t2 + 1) * n_pl + p) * (ent_per_pg / n_pl) from by ring]
      have hj2 : j < min (ent_per_pg / n_pl)
          ((planeLoop n_pl ent_per_pg entry_sz Dir.fromNVM i n_pl 0
            { s with planes := fun p j =>
              if p < (min (rdFl (start_pg + i)) n_pl) then s.flash (start_pg + i) p j
              else s.planes p j } el).2 -
            (t2 * n_pl + p) * (ent_per_pg / n_pl)) * entry_sz := by
        rw [hel2, heq]
        exact hj
      rw [show start_pg + i + (t2 + 1) = start_pg + (i + 1) + t2 by omega]
      rw [show i + (t2 + 1) = i + 1 + t2 by omega]
      rw [ih (i + 1) _ _ t2 p j hr2 (by omega) hp hj2]
      exact congrFun (congrFun (congrFun
        (planeLoop_fromNVM_frame n_pl ent_per_pg entry_sz i n_pl 0 _ el).2.1
          (start_pg + (i + 1) + t2)) p) j

/-- C10: app_nvm_seq_transfer leaves the caller's start-address structure
(the ppa argument) unchanged on return, for every direction, page count,
entry geometry and I/O outcome (success or failure): the per-page
page-number increment is applied only to the private copy ppa_io. -/
theorem c10_seq_transfer_ppa_frame (n_pl ent_per_pg entry_sz : Nat) (dir : Dir)
    (rdFl wrFl : Nat → Nat) (pgs el : Nat) (s : SeqSt) :
    (app_nvm_seq_transfer n_pl ent_per_pg entry_sz dir rdFl wrFl pgs el s).2.cppa =
      s.cppa := by
  unfold app_nvm_seq_transfer
  exact pageLoop_cppa n_pl ent_per_pg entry_sz dir rdFl wrFl s.cppa.pg pgs 0 s el

/-- C2: with a positive plane count dividing ent_per_pg, enough pages to
cover the N entries, and successful page I/O on the pgs pages starting at
the caller's start page, writing N entries to NVM succeeds, places in
flash page start + t, plane p, byte j the flat-table byte at offset
ent_per_pg * entry_sz * t + p * (ent_per_pg * entry_sz / n_pl) + j (the
deterministic sequential entry-to-plane mapping), and reading back with
identical parameters into an arbitrary buffer succeeds and reproduces the
original N entries bit for bit. -/
theorem c2_seq_transfer_round_trip (n_pl ent_per_pg entry_sz : Nat)
    (rdFl wrFl : Nat → Nat) (pgs N : Nat) (s0 : SeqSt) (U : Nat → Nat)
    (Pl : Nat → Nat → Nat)
    (hpl : 0 < n_pl)
    (hdvd : n_pl ∣ ent_per_pg)
    (hcov : N ≤ pgs * ent_per_pg)
    (hwr : ∀ t, t < pgs → n_pl ≤ wrFl (s0.cppa.pg + t))
    (hrd : ∀ t, t < pgs → n_pl ≤ rdFl (s0.cppa.pg + t)) :
    (app_nvm_seq_transfer n_pl ent_per_pg entry_sz Dir.toNVM rdFl wrFl
      pgs N s0).1 = 0 ∧
    (∀ t p j, t < pgs → p < n_pl →
      j < min (ent_per_pg / n_pl)
          (N - (t * n_pl + p) * (ent_per_pg / n_pl)) * entry_sz →
      (app_nvm_seq_transfer n_pl ent_per_pg entry_sz Dir.toNVM rdFl wrFl
          pgs N s0).2.flash (s0.cppa.pg + t) p j =
        s0.user (ent_per_pg * entry_sz * t +
          p * (ent_per_pg * entry_sz / n_pl) + j)) ∧
    (app_nvm_seq_transfer n_pl ent_per_pg entry_sz Dir.fromNVM rdFl wrFl pgs N
      { user := U, planes := Pl,
        flash := (app_nvm_seq_transfer n_pl ent_per_pg entry_sz Dir.toNVM
          rdFl wrFl pgs N s0).2.flash,
        cppa := s0.cppa }).1 = 0 ∧
    (∀ b, b < N * entry_sz →
      (app_nvm_seq_transfer n_pl ent_per_pg entry_sz Dir.fromNVM rdFl wrFl pgs N
        { user := U, planes := Pl,
          flash := (app_nvm_seq_transfer n_pl ent_per_pg entry_sz Dir.toNVM
            rdFl wrFl pgs N s0).2.flash,
          cppa := s0.cppa }).2.user b = s0.user b) := by
  obtain ⟨q, hq⟩ := hdvd
  refine ⟨?_, ?_, ?_, ?_⟩
  · exact pageLoop_toNVM_status n_pl ent_per_pg entry_sz rdFl wrFl s0.cppa.pg
      pgs 0 s0 N (fun t ht => hwr t ht)
  · intro t p j ht hp hj
    have h := pageLoop_toNVM_flash_hit n_pl ent_per_pg entry_sz rdFl wrFl
      s0.cppa.pg pgs 0 s0 N t p j (fun t2 ht2 => hwr t2 ht2) ht hp hj
    rw [Nat.zero_add] at h
    exact h
  · exact pageLoop_fromNVM_status n_pl ent_per_pg entry_sz rdFl wrFl s0.cppa.pg
      pgs 0 _ N (fun t ht => hrd t ht)
  · intro b hb
    obtain ⟨c, hc⟩ : ∃ c, q * entry_sz = c := ⟨_, rfl⟩
    have hcpos : 0 < c := by
      rcases Nat.eq_zero_or_pos c with h0 | h
      · exfalso
        rw [← hc] at h0
        rcases Nat.mul_eq_zero.mp h0 with hq0 | he0
        · rw [hq0, Nat.mul_zero] at hq
          rw [hq, Nat.mul_zero] at hcov
          have hN : N = 0 := by omega
          rw [hN, Nat.zero_mul] at hb
          omega
        · rw [he0, Nat.mul_zero] at hb
          omega
      · exact h
    obtain ⟨u, hu⟩ : ∃ u, b / c = u := ⟨_, rfl⟩
    obtain ⟨j, hj0⟩ : ∃ j, b % c = j := ⟨_, rfl⟩
    obtain ⟨t, ht0⟩ : ∃ t, u / n_pl = t := ⟨_, rfl⟩
    obtain ⟨p, hp0⟩ : ∃ p, u % n_pl = p := ⟨_, rfl⟩
    have hjc : j < c := by rw [← hj0]; exact Nat.mod_lt _ hcpos
    have hpn : p < n_pl := by rw [← hp0]; exact Nat.mod_lt _ hpl
    have hdm : c * u + j = b := by rw [← hu, ← hj0]; exact Nat.div_add_mod b c
    have hcm : c * u = u * c := Nat.mul_comm c u
    have hut : u = t * n_pl + p := by
      rw [← ht0, ← hp0]
      have h1 := Nat.div_add_mod u n_pl
      have h2 : n_pl * (u / n_pl) = u / n_pl * n_pl := Nat.mul_comm _ _
      omega
    have hepp : ent_per_pg / n_pl = q := by
      rw [hq]
      exact Nat.mul_div_cancel_left q hpl
    have hbgap : ent_per_pg * entry_sz / n_pl = c := by
      rw [hq, Nat.mul_assoc, Nat.mul_div_cancel_left _ hpl, hc]
    have hpes : ent_per_pg * entry_sz = n_pl * c := by rw [hq, ← hc]; ring
    have hupper : u < pgs * n_pl := by
      have h1 : N * entry_sz ≤ pgs * ent_per_pg * entry_sz :=
        Nat.mul_le_mul_right _ hcov
      have h2 : pgs * ent_per_pg * entry_sz = pgs * n_pl * c := by
        rw [hq, ← hc]; ring
      have h3 : u * c < pgs * n_pl * c := by omega
      exact lt_of_mul_lt_mul_right h3 (Nat.zero_le c)
    have htpgs : t < pgs := by
      rw [← ht0]
      have h4 : u < n_pl * pgs := by rw [Nat.mul_comm n_pl pgs]; exact hupper
      exact Nat.div_lt_of_lt_mul h4
    have hjbound : j < min (ent_per_pg / n_pl)
        (N - (t * n_pl + p) * (ent_per_pg / n_pl)) * entry_sz := by
      rw [hepp, ← hut, min_mul_right_nat]
      refine lt_min_iff.mpr ⟨?_, ?_⟩
      · rw [hc]; exact hjc
      · rw [Nat.sub_mul]
        have h5 : u * q * entry_sz = u * c := by rw [← hc]; ring
        omega
    have hposeq : ent_per_pg * entry_sz * (0 + t) +
        p * (ent_per_pg * entry_sz / n_pl) + j = b := by
      rw [Nat.zero_add, hbgap, hpes]
      have h6 : n_pl * c * t + p * c = u * c := by rw [hut]; ring
      omega
    rw [← hposeq]
    have hfrom := pageLoop_fromNVM_user_hit n_pl ent_per_pg entry_sz rdFl wrFl
      s0.cppa.pg pgs 0
      { user := U, planes := Pl,
        flash := (app_nvm_seq_transfer n_pl ent_per_pg entry_sz Dir.toNVM
          rdFl wrFl pgs N s0).2.flash,
        cppa := s0.cppa }
      N t p j (fun t2 ht2 => hrd t2 ht2) htpgs hpn hjbound
    have hto := pageLoop_toNVM_flash_hit n_pl ent_per_pg entry_sz rdFl wrFl
      s0.cppa.pg pgs 0 s0 N t p j (fun t2 ht2 => hwr t2 ht2) htpgs hpn hjbound
    exact Eq.trans hfrom hto

/-- C2 witness: two planes, four entries per page, one-byte entries, six
entries over two pages starting at page 0 with all page I/O succeeding:
the read-back table agrees with the original on all six bytes. -/
theorem c2_seq_transfer_round_trip_w :
    ((0 : Nat) < 2 ∧ (2 : Nat) ∣ 4 ∧ (6 : Nat) ≤ 2 * 4 ∧
      (∀ t, t < 2 → 2 ≤ flW (s0W.cppa.pg + t)) ∧
      (∀ t, t < 2 → 2 ≤ flW (s0W.cppa.pg + t))) ∧
    (∀ b, b < 6 * 1 →
      (app_nvm_seq_transfer 2 4 1 Dir.fromNVM flW flW 2 6
        { user := fun _ => 99, planes := fun _ _ => 99,
          flash := (app_nvm_seq_transfer 2 4 1 Dir.toNVM flW flW 2 6 s0W).2.flash,
          cppa := s0W.cppa }).2.user b = s0W.user b) :=
  ⟨⟨by decide, by decide, by decide, by decide, by decide⟩,
   (c2_seq_transfer_round_trip 2 4 1 flW flW 2 6 s0W (fun _ => 99) (fun _ _ => 99)
      (by decide) (by decide) (by decide) (by decide) (by decide)).2.2.2⟩
